import Mathlib

/-!
Verification of the NachOS MP4 file-system layer (`filehdr.cc`, `directory.cc`,
`filesys.cc`) against its natural-language specification.

The multi-level index-node code is embedded shallowly: C `int` values become
`Int`, the free-sector bitmap becomes an explicit `Bitmap` value, and the disk
becomes a total function from sector numbers to sector contents.  The constants
`SectorSize` (`S`), `NumDirect` (`ND`) and the four capacity thresholds
`BYTES_1LEVEL < BYTES_2LEVEL < BYTES_3LEVEL < BYTES_4LEVEL` are declared in the
repository's `filehdr.h`, which is not part of the provided sources; following
the specification (§3) the thresholds equal `ND^k * S` and the development is
parametrised over positive `S` and `ND ≥ 2`.
-/

/-- Modelled from the spec: the constants of `filehdr.h` (missing from the
sources).  `S` is the sector size in bytes, `ND` the number of pointer slots
(`NumDirect`) in an index node; the spec's threshold ladder is strict, which
forces `2 ≤ ND`, and sectors are nonempty, `0 < S`. -/
structure FSParams where
  S : Nat
  ND : Nat
  hS : 0 < S
  hND : 2 ≤ ND

/-- `BYTES_kLEVEL` as a natural number: `ND^k` data sectors of `S` bytes
(spec §3: each threshold equals `NumDirect^k` data-sector-bytes). -/
def BYTESn (P : FSParams) (k : Nat) : Nat := P.ND ^ k * P.S

/-- `BYTES_kLEVEL` as a C `int`. -/
def BYTES (P : FSParams) (k : Nat) : Int := (BYTESn P k : Int)

theorem BYTESn_pos (P : FSParams) (k : Nat) : 0 < BYTESn P k := by
  have h1 := P.hS
  have h2 := P.hND
  have : 0 < P.ND ^ k := Nat.pos_pow_of_pos k (by omega)
  simp only [BYTESn]
  exact Nat.mul_pos this h1

theorem BYTES_pos (P : FSParams) (k : Nat) : (0 : Int) < BYTES P k := by
  have := BYTESn_pos P k
  simp only [BYTES]
  exact_mod_cast this

theorem BYTESn_le_BYTESn (P : FSParams) {j k : Nat} (h : j ≤ k) :
    BYTESn P j ≤ BYTESn P k := by
  have h2 := P.hND
  exact Nat.mul_le_mul_right _ (Nat.pow_le_pow_right (by omega) h)

theorem BYTES_le_BYTES (P : FSParams) {j k : Nat} (h : j ≤ k) :
    BYTES P j ≤ BYTES P k := by
  have := BYTESn_le_BYTESn P h
  simp only [BYTES]
  exact_mod_cast this

theorem BYTESn_lt_BYTESn (P : FSParams) {j k : Nat} (h : j < k) :
    BYTESn P j < BYTESn P k := by
  have h2 := P.hND
  have h1 := P.hS
  have : P.ND ^ j < P.ND ^ k := Nat.pow_lt_pow_right (by omega) h
  exact Nat.mul_lt_mul_of_lt_of_le this (le_refl _) h1

/-- The `divRoundUp` macro of NachOS `utility.h`: `(n + s - 1) / s`.  Every
call site below has nonnegative `n` and positive `s`, where C (truncating)
and Lean (Euclidean) integer division agree. -/
def divRoundUp (n s : Int) : Int := (n + s - 1) / s

theorem divRoundUp_nonneg_eq (n s : Nat) (hs : 0 < s) :
    divRoundUp (n : Int) (s : Int) = (((n + s - 1) / s : Nat) : Int) := by
  simp only [divRoundUp]
  have h1 : ((n : Int) + (s : Int) - 1) = ((n + s - 1 : Nat) : Int) := by
    omega
  rw [h1, Int.ofNat_ediv]

theorem divRoundUp_toNat (n s : Nat) (hs : 0 < s) :
    (divRoundUp (n : Int) (s : Int)).toNat = (n + s - 1) / s := by
  rw [divRoundUp_nonneg_eq n s hs]
  exact Int.toNat_ofNat _

theorem divRoundUp_cast_nonneg (n s : Nat) (hs : 0 < s) :
    0 ≤ divRoundUp (n : Int) (s : Int) := by
  rw [divRoundUp_nonneg_eq n s hs]
  exact Int.ofNat_nonneg _

/-! ## The free-sector bitmap

Modelled from the spec (§4.1): `pbitmap.cc`/`bitmap.cc` are not among the
provided sources.  One bit per sector, `true` = allocated; `FindAndSet`
finds the first clear bit, sets it and returns its index, or returns `-1`;
`Clear` clears an in-range bit; `Test` reports an in-range bit;
`NumClear` counts clear bits. -/
structure Bitmap where
  numBits : Nat
  bits : Nat → Bool

namespace Bitmap

def test (b : Bitmap) (s : Int) : Bool :=
  decide (0 ≤ s) && decide (s.toNat < b.numBits) && b.bits s.toNat

def setBit (b : Bitmap) (i : Nat) : Bitmap :=
  ⟨b.numBits, fun j => if j = i then true else b.bits j⟩

def clearBit (b : Bitmap) (s : Int) : Bitmap :=
  if 0 ≤ s ∧ s.toNat < b.numBits then
    ⟨b.numBits, fun j => if j = s.toNat then false else b.bits j⟩
  else b

def numClear (b : Bitmap) : Nat :=
  (List.range b.numBits).countP (fun i => ! b.bits i)

def findClear (b : Bitmap) : Option Nat :=
  (List.range b.numBits).find? (fun i => ! b.bits i)

def findAndSet (b : Bitmap) : Int × Bitmap :=
  match b.findClear with
  | some i => ((i : Int), b.setBit i)
  | none => (-1, b)

end Bitmap

/-! ## The on-disk index node (`FileHeader`)

`FileHeader` holds `numBytes`, `numSectors` and the pointer array
`dataSectors` (`int dataSectors[NumDirect]` in `filehdr.h`).  The array is
modelled as a total function `Nat → Int`; for target sizes above
`BYTES_4LEVEL` the C code indexes it past `NumDirect` (undefined behaviour in
C), which the unbounded model resolves by keeping every write.  A sector's
raw contents reinterpreted as a header (`FetchFrom` is a whole-sector cast)
are modelled by letting the disk store `FileHeaderData` directly; a
zero-filled sector reads back as the all-zero header. -/
structure FileHeaderData where
  numBytes : Int
  numSectors : Int
  dataSectors : Nat → Int

/-- What `FetchFrom` yields on a sector that `CleanDiskSector` zero-filled:
all fields read back as zero. -/
def zeroHeader : FileHeaderData := ⟨0, 0, fun _ => 0⟩

/-- The `FileHeader()` constructor memsets `dataSectors` to `-1`. -/
def freshDS : Nat → Int := fun _ => -1

/-- `FileHeader::FileLength`. -/
def FileLength (hdr : FileHeaderData) : Int := hdr.numBytes

/-- Mutable state threaded through `FileHeader::Allocate`: the in-memory free
map, the disk contents (as seen through header-typed whole-sector reads), and
the list of sectors passed to `CleanDiskSector`, in call order (the spec's
zero-fill invariant is stated over this trace). -/
structure AllocSt where
  bmp : Bitmap
  disk : Int → FileHeaderData
  cleaned : List Int

/-- `WriteBack`/`WriteSector` of a header-sized record at sector `s`. -/
def writeSector (d : Int → FileHeaderData) (s : Int) (h : FileHeaderData) :
    Int → FileHeaderData :=
  fun t => if t = s then h else d t

/-- One store `dataSectors[i] = v`. -/
def updDS (ds : Nat → Int) (i : Nat) (v : Int) : Nat → Int :=
  fun j => if j = i then v else ds j

/-- The direct branch of `FileHeader::Allocate`:
`for (i = 0; i < numSectors; i++) { dataSectors[i] = freeMap->FindAndSet();
ASSERT(dataSectors[i] >= 0); CleanDiskSector(dataSectors[i]); }`.
`count` is the remaining iteration count, `i` the current index; the `ASSERT`
is diagnostic only and holds in every run the theorems consider. -/
def directLoop : Nat → Nat → (Nat → Int) → AllocSt → (Nat → Int) × AllocSt
  | 0, _, ds, st => (ds, st)
  | c + 1, i, ds, st =>
    let p := st.bmp.findAndSet
    directLoop c (i + 1) (updDS ds i p.1)
      ⟨p.2, writeSector st.disk p.1 zeroHeader, st.cleaned ++ [p.1]⟩

mutual
/-- `FileHeader::Allocate` of `filehdr.cc` (lines 97–158), transcribed branch
for branch.  The level-4 test is a plain `if`, after which the C source runs
the `BYTES_3LEVEL` else-if ladder on the *mutated* `fileSize`; that ladder is
written out once under each arm of the level-4 test (the two copies are the
same expression, specialised to the test's outcome). -/
def Allocate (P : FSParams) (fileSize : Int) (st : AllocSt) :
    FileHeaderData × Bool × AllocSt :=
  let numSectors := divRoundUp fileSize (P.S : Int)
  if (st.bmp.numClear : Int) < numSectors then
    (⟨fileSize, numSectors, freshDS⟩, false, st)
  else if fileSize > BYTES P 4 then
    let r := AllocateLevelLoop P 4 fileSize freshDS 0 st
    if r.2.1 > BYTES P 3 then
      let q := AllocateLevelLoop P 3 r.2.1 r.1 0 r.2.2
      (⟨fileSize, numSectors, q.1⟩, true, q.2.2)
    else if r.2.1 > BYTES P 2 then
      let q := AllocateLevelLoop P 2 r.2.1 r.1 0 r.2.2
      (⟨fileSize, numSectors, q.1⟩, true, q.2.2)
    else if r.2.1 > BYTES P 1 then
      let q := AllocateLevelLoop P 1 r.2.1 r.1 0 r.2.2
      (⟨fileSize, numSectors, q.1⟩, true, q.2.2)
    else
      let q := directLoop numSectors.toNat 0 r.1 r.2.2
      (⟨fileSize, numSectors, q.1⟩, true, q.2)
  else
    if fileSize > BYTES P 3 then
      let q := AllocateLevelLoop P 3 fileSize freshDS 0 st
      (⟨fileSize, numSectors, q.1⟩, true, q.2.2)
    else if fileSize > BYTES P 2 then
      let q := AllocateLevelLoop P 2 fileSize freshDS 0 st
      (⟨fileSize, numSectors, q.1⟩, true, q.2.2)
    else if fileSize > BYTES P 1 then
      let q := AllocateLevelLoop P 1 fileSize freshDS 0 st
      (⟨fileSize, numSectors, q.1⟩, true, q.2.2)
    else
      let q := directLoop numSectors.toNat 0 freshDS st
      (⟨fileSize, numSectors, q.1⟩, true, q.2)
termination_by ((fileSize.toNat, 0) : Nat × Nat)
decreasing_by
all_goals
· have h4 := BYTES_pos P 4
  have h3 := BYTES_pos P 3
  have h2 := BYTES_pos P 2
  have h1 := BYTES_pos P 1
  have h34 := BYTES_le_BYTES P (show 3 ≤ 4 by omega)
  apply Prod.Lex.left
  omega

/-- The `while (fileSize > 0)` loops of `FileHeader::Allocate` at level `k`
(capacity `BYTES_kLEVEL`): claim `dataSectors[i] = freeMap->FindAndSet()`,
run `AllocateSubHeader(subHeader, freeMap, fileSize, BYTES_kLEVEL)` — which
calls `subHeader->Allocate(freeMap, min(fileSize, BYTES_kLEVEL))`, ignores
its result and does `fileSize -= BYTES_kLEVEL` — then
`subHeader->WriteBack(dataSectors[i])` and `i++`.  Returns the final
`dataSectors`, the final (possibly negative) `fileSize` and the state. -/
def AllocateLevelLoop (P : FSParams) (k : Nat) (fs : Int) (ds : Nat → Int)
    (i : Nat) (st : AllocSt) : (Nat → Int) × Int × AllocSt :=
  if fs > 0 then
    let p := st.bmp.findAndSet
    let c := Allocate P (min fs (BYTES P k)) ⟨p.2, st.disk, st.cleaned⟩
    AllocateLevelLoop P k (fs - BYTES P k) (updDS ds i p.1) (i + 1)
      ⟨c.2.2.bmp, writeSector c.2.2.disk p.1 c.1, c.2.2.cleaned⟩
  else (ds, fs, st)
termination_by (((BYTES P k).toNat, fs.toNat) : Nat × Nat)
decreasing_by
· have hk := BYTES_pos P k
  rcases le_or_lt (BYTES P k) fs with hle | hlt
  · have heq : min fs (BYTES P k) = BYTES P k := min_eq_right hle
    rw [heq]
    apply Prod.Lex.right
    omega
  · apply Prod.Lex.left
    omega
· have hk := BYTES_pos P k
  apply Prod.Lex.right
  omega
end

mutual
/-- The number of `FindAndSet` calls a run of `Allocate` makes when no call
fails, following the branch structure of `Allocate` (after a level-4 loop the
residual `fileSize` is nonpositive, so the C ladder falls through to the
direct branch, which claims the original `numSectors` sectors again). -/
def sectorDemand (P : FSParams) (fs : Int) : Nat :=
  if fs > BYTES P 4 then
    sectorDemandLoop P 4 fs + (divRoundUp fs (P.S : Int)).toNat
  else if fs > BYTES P 3 then sectorDemandLoop P 3 fs
  else if fs > BYTES P 2 then sectorDemandLoop P 2 fs
  else if fs > BYTES P 1 then sectorDemandLoop P 1 fs
  else (divRoundUp fs (P.S : Int)).toNat
termination_by ((fs.toNat, 0) : Nat × Nat)
decreasing_by
all_goals
· have h4 := BYTES_pos P 4
  have h3 := BYTES_pos P 3
  have h2 := BYTES_pos P 2
  have h1 := BYTES_pos P 1
  apply Prod.Lex.left
  omega

/-- `FindAndSet` calls made by the level-`k` loop on residual size `fs`: one
per child for the child's header sector, plus the child's own demand. -/
def sectorDemandLoop (P : FSParams) (k : Nat) (fs : Int) : Nat :=
  if fs > 0 then
    1 + sectorDemand P (min fs (BYTES P k)) + sectorDemandLoop P k (fs - BYTES P k)
  else 0
termination_by (((BYTES P k).toNat, fs.toNat) : Nat × Nat)
decreasing_by
· have hk := BYTES_pos P k
  rcases le_or_lt (BYTES P k) fs with hle | hlt
  · have heq : min fs (BYTES P k) = BYTES P k := min_eq_right hle
    rw [heq]
    apply Prod.Lex.right
    omega
  · apply Prod.Lex.left
    omega
· have hk := BYTES_pos P k
  apply Prod.Lex.right
  omega
end

/-- Number of iterations of a level-`k` allocation loop started at `fs`. -/
def loopIters (P : FSParams) (fs : Int) (k : Nat) : Nat :=
  if fs > 0 then loopIters P (fs - BYTES P k) k + 1 else 0
termination_by fs.toNat
decreasing_by
· have hk := BYTES_pos P k
  omega

/-- Recursion depth `ByteToSector` uses on a header of size `fs` produced by
`Allocate` (a size above `BYTES_4LEVEL` reaches a zero-filled sector after one
step, because the direct branch clobbered the level-4 pointers). -/
def levelsOf (P : FSParams) (fs : Int) : Nat :=
  if fs > BYTES P 4 then 1
  else if fs > BYTES P 3 then 3
  else if fs > BYTES P 2 then 2
  else if fs > BYTES P 1 then 1
  else 0

/-- `FileHeader::ByteToSector` of `filehdr.cc` (lines 252–282).  The C
function recurses through headers it fetches from disk and so need not
terminate on arbitrary disk contents; `fuel` bounds the recursion depth and
is never exhausted on headers produced by `Allocate` (depth ≤ 4, compare
`Print`'s fixed depth 4).  When fuel runs out the direct case answers, and
offsets are naturals, `divRoundDown` on nonnegative ints being `Nat`
division. -/
def ByteToSector (P : FSParams) (d : Int → FileHeaderData) :
    Nat → FileHeaderData → Nat → Int
  | 0, hdr, offset => hdr.dataSectors (offset / P.S)
  | fuel + 1, hdr, offset =>
    if hdr.numBytes > BYTES P 1 then
      let el : Nat × Nat :=
        if hdr.numBytes > BYTES P 4 then (offset / BYTESn P 4, BYTESn P 4)
        else if hdr.numBytes > BYTES P 3 then (offset / BYTESn P 3, BYTESn P 3)
        else if hdr.numBytes > BYTES P 2 then (offset / BYTESn P 2, BYTESn P 2)
        else (offset / BYTESn P 1, BYTESn P 1)
      ByteToSector P d fuel (d (hdr.dataSectors el.1)) (offset - el.2 * el.1)
    else hdr.dataSectors (offset / P.S)

/-- The direct branch of `FileHeader::Deallocate`: clear each of the
`numSectors` entries (the `ASSERT(freeMap->Test(...))` is diagnostic).
Returns the bitmap and the sectors cleared, in call order. -/
def DeallocateDirect (ds : Nat → Int) : Nat → Nat → Bitmap → Bitmap × List Int
  | 0, _, bmp => (bmp, [])
  | c + 1, i, bmp =>
    let r := DeallocateDirect ds c (i + 1) (bmp.clearBit (ds i))
    (r.1, ds i :: r.2)

mutual
/-- `FileHeader::Deallocate` of `filehdr.cc` (lines 176–197).  Beyond the
direct level it fetches `divRoundUp(numSectors, NumDirect)` child headers
from disk and deallocates them recursively; it never clears the child header
sectors themselves.  `fuel` bounds the depth (cycles through disk contents
would make the C code diverge); headers built by `Allocate` need at most 4. -/
def Deallocate (P : FSParams) (fuel : Nat) (hdr : FileHeaderData)
    (d : Int → FileHeaderData) (bmp : Bitmap) : Bitmap × List Int :=
  if hdr.numBytes > BYTES P 1 then
    match fuel with
    | 0 => (bmp, [])
    | f + 1 =>
      DeallocateChildren P f (divRoundUp hdr.numSectors (P.ND : Int)).toNat 0
        hdr.dataSectors d bmp
  else DeallocateDirect hdr.dataSectors hdr.numSectors.toNat 0 bmp
termination_by ((fuel, 0) : Nat × Nat)
decreasing_by
· apply Prod.Lex.left
  omega

/-- The child loop of `Deallocate`: fetch the header at `dataSectors[i]` and
deallocate it. -/
def DeallocateChildren (P : FSParams) (f : Nat) (count i : Nat)
    (ds : Nat → Int) (d : Int → FileHeaderData) (bmp : Bitmap) :
    Bitmap × List Int :=
  match count with
  | 0 => (bmp, [])
  | c + 1 =>
    let r := Deallocate P f (d (ds i)) d bmp
    let r2 := DeallocateChildren P f c (i + 1) ds d r.1
    (r2.1, r.2 ++ r2.2)
termination_by ((f, count) : Nat × Nat)
decreasing_by
· apply Prod.Lex.right
  omega
· apply Prod.Lex.right
  omega
end

/-- Modelled from the spec (§9, design note): `Allocate` rewritten as a single
mutually exclusive else-if ladder driven by the original target size — the
form the spec's own `allocate` description assumes.  It differs from the
transcribed `Allocate` only in making the `BYTES_4LEVEL` branch terminal. -/
def AllocateLadderSpec (P : FSParams) (fileSize : Int) (st : AllocSt) :
    FileHeaderData × Bool × AllocSt :=
  let numSectors := divRoundUp fileSize (P.S : Int)
  if (st.bmp.numClear : Int) < numSectors then
    (⟨fileSize, numSectors, freshDS⟩, false, st)
  else if fileSize > BYTES P 4 then
    let q := AllocateLevelLoop P 4 fileSize freshDS 0 st
    (⟨fileSize, numSectors, q.1⟩, true, q.2.2)
  else if fileSize > BYTES P 3 then
    let q := AllocateLevelLoop P 3 fileSize freshDS 0 st
    (⟨fileSize, numSectors, q.1⟩, true, q.2.2)
  else if fileSize > BYTES P 2 then
    let q := AllocateLevelLoop P 2 fileSize freshDS 0 st
    (⟨fileSize, numSectors, q.1⟩, true, q.2.2)
  else if fileSize > BYTES P 1 then
    let q := AllocateLevelLoop P 1 fileSize freshDS 0 st
    (⟨fileSize, numSectors, q.1⟩, true, q.2.2)
  else
    let q := directLoop numSectors.toNat 0 freshDS st
    (⟨fileSize, numSectors, q.1⟩, true, q.2)

/-! ## Bitmap lemmas -/

theorem countP_notb_update_true (l : List Nat) (hnd : l.Nodup) (i : Nat)
    (hi : i ∈ l) (f : Nat → Bool) (hfi : f i = false) :
    (l.countP fun j => ! (if j = i then true else f j)) + 1 =
      l.countP fun j => ! f j := by
  induction l with
  | nil => cases hi
  | cons a l ih =>
    rcases List.mem_cons.mp hi with rfl | hmem
    · have hnl : i ∉ l := (List.nodup_cons.mp hnd).1
      rw [List.countP_cons, List.countP_cons]
      have h1 : (! (if i = i then true else f i)) = false := by simp
      have h2 : (! f i) = true := by simp [hfi]
      rw [h1, h2]
      have hcongr : (l.countP fun j => ! (if j = i then true else f j)) =
          l.countP fun j => ! f j := by
        apply List.countP_congr
        intro j hj
        have : j ≠ i := fun h => hnl (h ▸ hj)
        simp [this]
      rw [hcongr]
      simp
    · have hne : a ≠ i := by
        intro h
        exact (List.nodup_cons.mp hnd).1 (h ▸ hmem)
      rw [List.countP_cons, List.countP_cons]
      have h1 : (! (if a = i then true else f a)) = (! f a) := by simp [hne]
      rw [h1]
      have := ih (List.nodup_cons.mp hnd).2 hmem
      omega

theorem countP_notb_update_false (l : List Nat) (hnd : l.Nodup) (i : Nat)
    (hi : i ∈ l) (f : Nat → Bool) (hfi : f i = true) :
    l.countP (fun j => ! (if j = i then false else f j)) =
      (l.countP fun j => ! f j) + 1 := by
  induction l with
  | nil => cases hi
  | cons a l ih =>
    rcases List.mem_cons.mp hi with rfl | hmem
    · have hnl : i ∉ l := (List.nodup_cons.mp hnd).1
      rw [List.countP_cons, List.countP_cons]
      have h1 : (! (if i = i then false else f i)) = true := by simp
      have h2 : (! f i) = false := by simp [hfi]
      rw [h1, h2]
      have hcongr : (l.countP fun j => ! (if j = i then false else f j)) =
          l.countP fun j => ! f j := by
        apply List.countP_congr
        intro j hj
        have : j ≠ i := fun h => hnl (h ▸ hj)
        simp [this]
      rw [hcongr]
      simp
    · have hne : a ≠ i := by
        intro h
        exact (List.nodup_cons.mp hnd).1 (h ▸ hmem)
      rw [List.countP_cons, List.countP_cons]
      have h1 : (! (if a = i then false else f a)) = (! f a) := by simp [hne]
      rw [h1]
      have := ih (List.nodup_cons.mp hnd).2 hmem
      omega

namespace Bitmap

theorem numBits_setBit (b : Bitmap) (i : Nat) :
    (b.setBit i).numBits = b.numBits := rfl

theorem numBits_clearBit (b : Bitmap) (s : Int) :
    (b.clearBit s).numBits = b.numBits := by
  simp only [clearBit]
  split <;> rfl

theorem findClear_spec (b : Bitmap) {i : Nat} (h : b.findClear = some i) :
    b.bits i = false ∧ i < b.numBits := by
  have h1 := List.find?_some h
  have h2 := List.mem_of_find?_eq_some h
  simp at h1
  simp [List.mem_range] at h2
  exact ⟨h1, h2⟩

theorem findClear_isSome (b : Bitmap) (h : 0 < b.numClear) :
    ∃ i, b.findClear = some i := by
  have : ∃ a ∈ List.range b.numBits, (! b.bits a) = true := by
    rw [← List.countP_pos_iff]
    exact h
  rcases this with ⟨a, ha, hpa⟩
  have : (List.find? (fun i => ! b.bits i) (List.range b.numBits)).isSome := by
    rw [List.find?_isSome]
    exact ⟨a, ha, hpa⟩
  rcases Option.isSome_iff_exists.mp this with ⟨i, hi⟩
  exact ⟨i, hi⟩

theorem findClear_zero (b : Bitmap) (hb : 0 < b.numBits) (h0 : b.bits 0 = false) :
    b.findClear = some 0 := by
  simp only [findClear]
  rcases Nat.exists_eq_add_of_lt hb with ⟨m, hm⟩
  rw [show b.numBits = m + 1 by omega, List.range_succ_eq_map]
  simp [List.find?_cons, h0]

theorem numClear_setBit (b : Bitmap) {i : Nat} (hf : b.bits i = false)
    (hlt : i < b.numBits) : (b.setBit i).numClear + 1 = b.numClear := by
  simp only [numClear, setBit]
  exact countP_notb_update_true _ (List.nodup_range _) i (List.mem_range.mpr hlt) _ hf

theorem numClear_clearBit (b : Bitmap) {s : Int} (h0 : 0 ≤ s)
    (hlt : s.toNat < b.numBits) (ht : b.bits s.toNat = true) :
    (b.clearBit s).numClear = b.numClear + 1 := by
  simp only [clearBit, if_pos (And.intro h0 hlt), numClear]
  exact countP_notb_update_false _ (List.nodup_range _) s.toNat
    (List.mem_range.mpr hlt) _ ht

theorem test_setBit_self (b : Bitmap) {i : Nat} (hlt : i < b.numBits) :
    (b.setBit i).test (i : Int) = true := by
  simp [test, setBit, hlt]

theorem test_setBit_mono (b : Bitmap) (i : Nat) {s : Int}
    (h : b.test s = true) : (b.setBit i).test s = true := by
  simp only [test, setBit, Bool.and_eq_true, decide_eq_true_eq] at h ⊢
  refine ⟨h.1, ?_⟩
  rcases h with ⟨-, h2⟩
  split
  · rfl
  · exact h2

theorem test_setBit_of_ne (b : Bitmap) (i : Nat) {s : Int} (hne : s.toNat ≠ i) :
    (b.setBit i).test s = b.test s := by
  simp only [test, setBit]
  congr 1
  simp [hne]

theorem test_false_of_bits_false (b : Bitmap) {i : Nat} (h : b.bits i = false) :
    b.test (i : Int) = false := by
  simp [test, h]

end Bitmap

/-- `b'` extends `b`: same length, and every allocated sector stays
allocated. -/
def Bitmap.Extends (b b' : Bitmap) : Prop :=
  b'.numBits = b.numBits ∧ ∀ s : Int, b.test s = true → b'.test s = true

theorem Bitmap.Extends_refl (b : Bitmap) : b.Extends b := ⟨rfl, fun _ h => h⟩

theorem Bitmap.Extends_trans {a b c : Bitmap} (h1 : a.Extends b)
    (h2 : b.Extends c) : a.Extends c :=
  ⟨h2.1.trans h1.1, fun s hs => h2.2 s (h1.2 s hs)⟩

/-- Sector `s` was claimed between states `b` and `b'`. -/
def Bitmap.Newly (b b' : Bitmap) (s : Int) : Prop :=
  b'.test s = true ∧ b.test s = false

theorem Bitmap.numClear_le_numBits (b : Bitmap) : b.numClear ≤ b.numBits := by
  simpa [Bitmap.numClear] using List.countP_le_length (l := List.range b.numBits)
    (p := fun i => ! b.bits i)

theorem Bitmap.findAndSet_spec (b : Bitmap) (h : 0 < b.numClear) :
    0 ≤ b.findAndSet.1 ∧ b.findAndSet.1.toNat < b.numBits ∧
      b.test b.findAndSet.1 = false ∧
      b.findAndSet.2.numClear + 1 = b.numClear ∧
      b.Extends b.findAndSet.2 ∧
      b.findAndSet.2.test b.findAndSet.1 = true ∧
      (∀ s : Int, s ≠ b.findAndSet.1 → b.findAndSet.2.test s = b.test s) ∧
      b.findAndSet.2.test 0 = true := by
  rcases b.findClear_isSome h with ⟨i, hi⟩
  have hspec := b.findClear_spec hi
  have hfs : b.findAndSet = ((i : Int), b.setBit i) := by
    simp [Bitmap.findAndSet, hi]
  rw [hfs]
  have hnb : 0 < b.numBits := lt_of_lt_of_le (lt_of_lt_of_le h b.numClear_le_numBits) (le_refl _)
  refine ⟨Int.ofNat_nonneg i, ?_, ?_, ?_, ?_, ?_, ?_, ?_⟩
  · simpa using hspec.2
  · exact b.test_false_of_bits_false hspec.1
  · exact b.numClear_setBit hspec.1 hspec.2
  · exact ⟨rfl, fun s hs => b.test_setBit_mono i hs⟩
  · simpa using b.test_setBit_self hspec.2
  · intro s hs
    rcases le_or_lt 0 s with hpos | hneg
    · apply b.test_setBit_of_ne
      intro hcontra
      apply hs
      omega
    · simp [Bitmap.test, Bitmap.setBit, show ¬ (0 ≤ s) by omega]
  · by_cases hb0 : b.bits 0 = false
    · have h00 := b.findClear_zero hnb hb0
      rw [hi] at h00
      injection h00 with h00
      subst h00
      simpa using b.test_setBit_self hspec.2
    · simp only [Bool.not_eq_false] at hb0
      apply b.test_setBit_mono
      simp [Bitmap.test, hnb, hb0]

theorem Bitmap.Newly.mono_left {b0 b1 b2 : Bitmap} {s : Int}
    (hext : b0.Extends b1) (h : Bitmap.Newly b1 b2 s) : Bitmap.Newly b0 b2 s := by
  refine ⟨h.1, ?_⟩
  by_contra hc
  simp only [Bool.not_eq_false] at hc
  have := hext.2 s hc
  rw [h.2] at this
  cases this

theorem directLoop_spec (c : Nat) :
    ∀ (i : Nat) (ds : Nat → Int) (st : AllocSt) (dsOut : Nat → Int)
      (stOut : AllocSt), c ≤ st.bmp.numClear →
      directLoop c i ds st = (dsOut, stOut) →
      (stOut.bmp.numClear + c = st.bmp.numClear ∧
        st.bmp.Extends stOut.bmp) ∧
      (∀ j, (j < i ∨ i + c ≤ j) → dsOut j = ds j) ∧
      (∀ j, j < c → Bitmap.Newly st.bmp stOut.bmp (dsOut (i + j)) ∧
        stOut.disk (dsOut (i + j)) = zeroHeader) ∧
      (∀ j1 j2, j1 < c → j2 < c → j1 ≠ j2 → dsOut (i + j1) ≠ dsOut (i + j2)) ∧
      (∀ s : Int, ¬ Bitmap.Newly st.bmp stOut.bmp s →
        stOut.disk s = st.disk s) ∧
      (∃ Δ, stOut.cleaned = st.cleaned ++ Δ ∧
        ∀ s ∈ Δ, Bitmap.Newly st.bmp stOut.bmp s ∧ stOut.disk s = zeroHeader) ∧
      (0 < c → stOut.bmp.test 0 = true) := by
  induction c with
  | zero =>
    intro i ds st dsOut stOut _ heq
    simp only [directLoop] at heq
    injection heq with h1 h2
    subst h1
    subst h2
    refine ⟨⟨by omega, Bitmap.Extends_refl _⟩, fun j _ => rfl, ?_, ?_, ?_, ?_, ?_⟩
    · intro j hj
      omega
    · intro j1 j2 hj1 _ _
      omega
    · intro s _
      rfl
    · exact ⟨[], by simp, by simp⟩
    · intro h
      omega
  | succ c ih =>
    intro i ds st dsOut stOut hle heq
    have hpos : 0 < st.bmp.numClear := by omega
    obtain ⟨hfs0, hfslt, hfsclear, hfscnt, hfsext, hfstest, hfsother, hfsbit0⟩ :=
      st.bmp.findAndSet_spec hpos
    set p := st.bmp.findAndSet with hp
    set st1 : AllocSt := ⟨p.2, writeSector st.disk p.1 zeroHeader, st.cleaned ++ [p.1]⟩
      with hst1
    have hunf : directLoop (c + 1) i ds st = directLoop c (i + 1) (updDS ds i p.1) st1 := by
      simp only [directLoop]
    rw [hunf] at heq
    have hbmp1 : st1.bmp = p.2 := rfl
    have hle1 : c ≤ st1.bmp.numClear := by
      rw [hbmp1]
      omega
    obtain ⟨⟨hcnt, hext⟩, hdsfr, hnewzero, hdistinct, hdiskfr, hclean, hbit0⟩ :=
      ih (i + 1) (updDS ds i p.1) st1 dsOut stOut hle1 heq
    rw [hbmp1] at hcnt hext
    have hext01 : st.bmp.Extends st1.bmp := hfsext
    have hextfull : st.bmp.Extends stOut.bmp := Bitmap.Extends_trans hfsext hext
    have hnewp : Bitmap.Newly st.bmp stOut.bmp p.1 := ⟨hext.2 p.1 hfstest, hfsclear⟩
    have hds_at_i : dsOut i = p.1 := by
      have := hdsfr i (Or.inl (by omega))
      rw [this]
      simp [updDS]
    have htrans_newly : ∀ s : Int, Bitmap.Newly st1.bmp stOut.bmp s →
        Bitmap.Newly st.bmp stOut.bmp s := by
      intro s hs
      exact Bitmap.Newly.mono_left hext01 hs
    have hnot_newly : ∀ s : Int, ¬ Bitmap.Newly st.bmp stOut.bmp s →
        ¬ Bitmap.Newly st1.bmp stOut.bmp s := by
      intro s hns hcon
      exact hns (htrans_newly s hcon)
    have hdisk_p : stOut.disk p.1 = zeroHeader := by
      have hnn : ¬ Bitmap.Newly st1.bmp stOut.bmp p.1 := by
        intro hcon
        have hc2 : p.2.test p.1 = false := hcon.2
        rw [hfstest] at hc2
        cases hc2
      have := hdiskfr p.1 hnn
      rw [this]
      simp [hst1, writeSector]
    refine ⟨⟨by omega, hextfull⟩, ?_, ?_, ?_, ?_, ?_, ?_⟩
    · intro j hj
      rcases hj with hlt | hge
      · have := hdsfr j (Or.inl (by omega))
        rw [this]
        simp only [updDS]
        rw [if_neg (by omega)]
      · have := hdsfr j (Or.inr (by omega))
        rw [this]
        simp only [updDS]
        rw [if_neg (by omega)]
    · intro j hj
      rcases Nat.eq_zero_or_pos j with rfl | hjpos
      · rw [Nat.add_zero, hds_at_i]
        exact ⟨hnewp, hdisk_p⟩
      · have hj' : j - 1 < c := by omega
        have hz := hnewzero (j - 1) hj'
        have harith : i + 1 + (j - 1) = i + j := by omega
        rw [harith] at hz
        exact ⟨htrans_newly _ hz.1, hz.2⟩
    · intro j1 j2 hj1 hj2 hne
      have key : ∀ j, 0 < j → j < c + 1 → dsOut (i + j) ≠ p.1 := by
        intro j hjpos hjlt
        have hj' : j - 1 < c := by omega
        have hnew := hnewzero (j - 1) hj'
        have harith : i + 1 + (j - 1) = i + j := by omega
        rw [harith] at hnew
        intro hcon
        have hc2 : p.2.test (dsOut (i + j)) = false := hnew.1.2
        rw [hcon, hfstest] at hc2
        cases hc2
      rcases Nat.eq_zero_or_pos j1 with rfl | h1pos
      · rcases Nat.eq_zero_or_pos j2 with rfl | h2pos
        · omega
        · rw [Nat.add_zero, hds_at_i]
          exact fun hcon => key j2 h2pos hj2 hcon.symm
      · rcases Nat.eq_zero_or_pos j2 with rfl | h2pos
        · rw [Nat.add_zero, hds_at_i]
          exact key j1 h1pos hj1
        · have harith1 : i + j1 = i + 1 + (j1 - 1) := by omega
          have harith2 : i + j2 = i + 1 + (j2 - 1) := by omega
          rw [harith1, harith2]
          exact hdistinct (j1 - 1) (j2 - 1) (by omega) (by omega) (by omega)
    · intro s hns
      have h1 := hdiskfr s (hnot_newly s hns)
      rw [h1]
      have hsne : s ≠ p.1 := by
        intro hcon
        exact hns (hcon ▸ hnewp)
      simp [hst1, writeSector, hsne]
    · rcases hclean with ⟨Δ, hΔeq, hΔmem⟩
      refine ⟨p.1 :: Δ, ?_, ?_⟩
      · rw [hΔeq]
        simp [hst1]
      · intro s hs
        rcases List.mem_cons.mp hs with rfl | hmem
        · exact ⟨hnewp, hdisk_p⟩
        · have := hΔmem s hmem
          exact ⟨htrans_newly s this.1, this.2⟩
    · intro _
      rcases Nat.eq_zero_or_pos c with rfl | hcpos
      · simp only [directLoop] at heq
        injection heq with h1 h2
        subst h2
        exact hfsbit0
      · exact hbit0 hcpos

/-- One logical step of `Allocate`: the bitmap only grows, the disk changes
only on newly claimed sectors, and the `CleanDiskSector` trace grows by
sectors that are newly claimed and still zero-filled at the end. -/
def AllocStep (st st2 : AllocSt) : Prop :=
  st.bmp.Extends st2.bmp ∧
  (∀ s : Int, ¬ Bitmap.Newly st.bmp st2.bmp s → st2.disk s = st.disk s) ∧
  (∃ Δ, st2.cleaned = st.cleaned ++ Δ ∧
    ∀ s ∈ Δ, Bitmap.Newly st.bmp st2.bmp s ∧ st2.disk s = zeroHeader)

theorem AllocStep_refl (st : AllocSt) : AllocStep st st :=
  ⟨Bitmap.Extends_refl _, fun _ _ => rfl, ⟨[], by simp, by simp⟩⟩

theorem AllocStep_trans {a b c : AllocSt} (h1 : AllocStep a b)
    (h2 : AllocStep b c) : AllocStep a c := by
  obtain ⟨e1, f1, Δ1, hc1, hm1⟩ := h1
  obtain ⟨e2, f2, Δ2, hc2, hm2⟩ := h2
  refine ⟨Bitmap.Extends_trans e1 e2, ?_, ⟨Δ1 ++ Δ2, ?_, ?_⟩⟩
  · intro s hns
    have hnb : ¬ Bitmap.Newly b.bmp c.bmp s := by
      intro hn
      apply hns
      refine ⟨hn.1, ?_⟩
      by_contra hcc
      simp only [Bool.not_eq_false] at hcc
      have := e1.2 s hcc
      rw [hn.2] at this
      cases this
    have hna : ¬ Bitmap.Newly a.bmp b.bmp s := by
      intro hn
      apply hns
      exact ⟨e2.2 s hn.1, hn.2⟩
    rw [f2 s hnb, f1 s hna]
  · rw [hc2, hc1, List.append_assoc]
  · intro s hs
    rcases List.mem_append.mp hs with hm | hm
    · obtain ⟨hn, hz⟩ := hm1 s hm
      have hkeep : ¬ Bitmap.Newly b.bmp c.bmp s := by
        intro hcon
        have hx : b.bmp.test s = false := hcon.2
        rw [hn.1] at hx
        cases hx
      exact ⟨⟨e2.2 s hn.1, hn.2⟩, by rw [f2 s hkeep, hz]⟩
    · obtain ⟨hn, hz⟩ := hm2 s hm
      exact ⟨Bitmap.Newly.mono_left e1 hn, hz⟩

/-- The pattern of one iteration of a level loop: starting from `sts`, a
single sector `w` is claimed (`st1`), the child allocation performs a step
(`stc`), and the child header is written back at `w`.  Relative to `sts` the
whole iteration is again an `AllocStep`. -/
theorem allocStep_claim_write {sts st1 stc : AllocSt} {w : Int}
    (hnb : st1.bmp.numBits = sts.bmp.numBits)
    (hw1 : st1.bmp.test w = true)
    (hwclear : sts.bmp.test w = false)
    (hother : ∀ s : Int, s ≠ w → st1.bmp.test s = sts.bmp.test s)
    (hdisk : st1.disk = sts.disk) (hclean : st1.cleaned = sts.cleaned)
    (hstep : AllocStep st1 stc) (hdr : FileHeaderData) :
    AllocStep sts ⟨stc.bmp, writeSector stc.disk w hdr, stc.cleaned⟩ := by
  obtain ⟨e2, f2, Δ2, hc2, hm2⟩ := hstep
  have e01 : sts.bmp.Extends st1.bmp := by
    refine ⟨hnb, ?_⟩
    intro s hs
    by_cases hsw : s = w
    · rw [hsw]
      exact hw1
    · rw [hother s hsw]
      exact hs
  have hext : sts.bmp.Extends stc.bmp := Bitmap.Extends_trans e01 e2
  have hwtest : stc.bmp.test w = true := e2.2 w hw1
  refine ⟨hext, ?_, ⟨Δ2, ?_, ?_⟩⟩
  · intro s hns
    have hsw : s ≠ w := by
      intro hcon
      apply hns
      rw [hcon]
      exact ⟨hwtest, hwclear⟩
    have hn1 : ¬ Bitmap.Newly st1.bmp stc.bmp s := by
      intro hn
      apply hns
      refine ⟨hn.1, ?_⟩
      rw [← hother s hsw]
      exact hn.2
    show writeSector stc.disk w hdr s = sts.disk s
    simp only [writeSector]
    rw [if_neg hsw, f2 s hn1, hdisk]
  · rw [hc2, hclean]
  · intro s hs
    obtain ⟨hn, hz⟩ := hm2 s hs
    have hsw : s ≠ w := by
      intro hcon
      subst hcon
      have hx : st1.bmp.test s = false := hn.2
      rw [hw1] at hx
      cases hx
    refine ⟨⟨hn.1, by rw [← hother s hsw]; exact hn.2⟩, ?_⟩
    show writeSector stc.disk w hdr s = zeroHeader
    simp only [writeSector]
    rw [if_neg hsw, hz]

theorem divRoundUp_toNat_of_nonneg (P : FSParams) (fs : Int) (h : 0 ≤ fs) :
    (divRoundUp fs (P.S : Int)).toNat = (fs.toNat + P.S - 1) / P.S := by
  have hr := divRoundUp_toNat fs.toNat P.S P.hS
  rwa [Int.toNat_of_nonneg h] at hr

theorem divRoundUp_nonneg_of_nonneg (P : FSParams) (fs : Int) (h : 0 ≤ fs) :
    0 ≤ divRoundUp fs (P.S : Int) := by
  have hr := divRoundUp_cast_nonneg fs.toNat P.S P.hS
  rwa [Int.toNat_of_nonneg h] at hr

theorem ceil_split (P : FSParams) (a m : Nat) :
    (a + m * P.S + P.S - 1) / P.S = (a + P.S - 1) / P.S + m := by
  have h := P.hS
  rw [show a + m * P.S + P.S - 1 = (a + P.S - 1) + m * P.S by omega]
  exact Nat.add_mul_div_right _ _ h

theorem ceil_BYTESn (P : FSParams) (k : Nat) :
    (BYTESn P k + P.S - 1) / P.S = P.ND ^ k := by
  have h := P.hS
  have : BYTESn P k + P.S - 1 = (P.S - 1) + P.ND ^ k * P.S := by
    have := BYTESn_pos P k
    simp only [BYTESn] at *
    omega
  rw [this, Nat.add_mul_div_right _ _ h, Nat.div_eq_of_lt (by omega)]
  omega

theorem sectorDemandLoop_ge_ceil (P : FSParams) (k : Nat)
    (HA : ∀ sz : Int, 0 ≤ sz → sz ≤ BYTES P k →
      (divRoundUp sz (P.S : Int)).toNat ≤ sectorDemand P sz) :
    ∀ (n : Nat) (fs : Int), fs.toNat ≤ n → 0 ≤ fs →
      (divRoundUp fs (P.S : Int)).toNat ≤ sectorDemandLoop P k fs := by
  intro n
  induction n with
  | zero =>
    intro fs hn h0
    have hfs : fs = 0 := by omega
    subst hfs
    rw [divRoundUp_toNat_of_nonneg P 0 (by omega)]
    have hz : (Int.toNat 0 + P.S - 1) / P.S = 0 :=
      Nat.div_eq_of_lt (by have := P.hS; omega)
    rw [hz]
    exact Nat.zero_le _
  | succ n ih =>
    intro fs hn h0
    have hcap := BYTES_pos P k
    rcases le_or_lt fs 0 with hle | hpos
    · have hfs : fs = 0 := by omega
      subst hfs
      rw [divRoundUp_toNat_of_nonneg P 0 (by omega)]
      have hz : (Int.toNat 0 + P.S - 1) / P.S = 0 :=
        Nat.div_eq_of_lt (by have := P.hS; omega)
      rw [hz]
      exact Nat.zero_le _
    · rw [sectorDemandLoop, if_pos hpos]
      rcases le_or_lt fs (BYTES P k) with hfscap | hfscap
      · have hmin : min fs (BYTES P k) = fs := min_eq_left hfscap
        rw [hmin]
        have := HA fs h0 hfscap
        omega
      · have hmin : min fs (BYTES P k) = BYTES P k := min_eq_right (le_of_lt hfscap)
        rw [hmin]
        have hcapdem := HA (BYTES P k) (le_of_lt hcap) (le_refl _)
        have hcapceil : (divRoundUp (BYTES P k) (P.S : Int)).toNat = P.ND ^ k := by
          rw [divRoundUp_toNat_of_nonneg P _ (le_of_lt hcap)]
          rw [show (BYTES P k).toNat = BYTESn P k by simp [BYTES]]
          exact ceil_BYTESn P k
        have hih := ih (fs - BYTES P k) (by omega) (by omega)
        have hsplit : (divRoundUp fs (P.S : Int)).toNat =
            (divRoundUp (fs - BYTES P k) (P.S : Int)).toNat + P.ND ^ k := by
          rw [divRoundUp_toNat_of_nonneg P fs h0,
            divRoundUp_toNat_of_nonneg P _ (by omega)]
          have harg : fs.toNat = (fs - BYTES P k).toNat + P.ND ^ k * P.S := by
            have hb : (BYTES P k).toNat = BYTESn P k := by simp [BYTES]
            have : (BYTES P k).toNat = P.ND ^ k * P.S := by
              rw [hb]
              rfl
            omega
          rw [harg]
          exact ceil_split P _ _
        omega

theorem sectorDemand_ge_ceil (P : FSParams) :
    ∀ (n : Nat) (fs : Int), fs.toNat ≤ n → 0 ≤ fs →
      (divRoundUp fs (P.S : Int)).toNat ≤ sectorDemand P fs := by
  intro n
  induction n with
  | zero =>
    intro fs hn h0
    have hfs : fs = 0 := by omega
    subst hfs
    have hB := BYTES_pos P 4
    have hB3 := BYTES_pos P 3
    have hB2 := BYTES_pos P 2
    have hB1 := BYTES_pos P 1
    rw [sectorDemand, if_neg (by omega), if_neg (by omega), if_neg (by omega),
      if_neg (by omega)]
  | succ n ih =>
    intro fs hn h0
    rw [sectorDemand]
    split
    · omega
    · rename_i h4
      split
      · rename_i h3
        have h3p := BYTES_pos P 3
        apply sectorDemandLoop_ge_ceil P 3 ?_ (n + 1) fs hn h0
        intro sz hsz0 hszle
        exact ih sz (by omega) hsz0
      · split
        · rename_i h2
          have h2p := BYTES_pos P 2
          apply sectorDemandLoop_ge_ceil P 2 ?_ (n + 1) fs hn h0
          intro sz hsz0 hszle
          have h23 := BYTES_le_BYTES P (show 2 ≤ 3 by omega)
          rename_i h3
          exact ih sz (by omega) hsz0
        · split
          · rename_i h1
            have h1p := BYTES_pos P 1
            apply sectorDemandLoop_ge_ceil P 1 ?_ (n + 1) fs hn h0
            intro sz hsz0 hszle
            exact ih sz (by omega) hsz0
          · omega

theorem loopIters_pos (P : FSParams) {fs : Int} (k : Nat) (h : 0 < fs) :
    0 < loopIters P fs k := by
  rw [loopIters, if_pos h]
  omega

theorem loopIters_nonpos (P : FSParams) {fs : Int} (k : Nat) (h : ¬ fs > 0) :
    loopIters P fs k = 0 := by
  rw [loopIters, if_neg h]

theorem entry_lt_loopIters (P : FSParams) (k : Nat) :
    ∀ (n : Nat) (fs : Int), fs.toNat ≤ n → ∀ o : Nat, (o : Int) < fs →
      o / BYTESn P k < loopIters P fs k := by
  intro n
  induction n with
  | zero =>
    intro fs hn o ho
    omega
  | succ n ih =>
    intro fs hn o ho
    have hcap := BYTESn_pos P k
    have hcapi := BYTES_pos P k
    have hpos : 0 < fs := by omega
    rw [loopIters, if_pos hpos]
    rcases Nat.lt_or_ge o (BYTESn P k) with hlt | hge
    · have : o / BYTESn P k = 0 := Nat.div_eq_of_lt hlt
      omega
    · have hdiv : o / BYTESn P k = (o - BYTESn P k) / BYTESn P k + 1 :=
        Nat.div_eq_sub_div hcap hge
      have hcast : ((o - BYTESn P k : Nat) : Int) = (o : Int) - BYTES P k := by
        simp only [BYTES]
        omega
      have hrec := ih (fs - BYTES P k) (by omega) (o - BYTESn P k) (by omega)
      omega

theorem loopIters_resid_pos (P : FSParams) (k : Nat) :
    ∀ (n : Nat) (fs : Int), fs.toNat ≤ n → ∀ j : Nat, j < loopIters P fs k →
      0 < fs - (j : Int) * BYTES P k := by
  intro n
  induction n with
  | zero =>
    intro fs hn j hj
    have hcap := BYTES_pos P k
    rcases Nat.eq_zero_or_pos (loopIters P fs k) with hz | hp
    · omega
    · have : 0 < fs := by
        by_contra hc
        rw [loopIters_nonpos P k (by omega)] at hp
        omega
      omega
  | succ n ih =>
    intro fs hn j hj
    have hcap := BYTES_pos P k
    have hpos : 0 < fs := by
      by_contra hc
      rw [loopIters_nonpos P k (by omega)] at hj
      omega
    rcases Nat.eq_zero_or_pos j with rfl | hjpos
    · simpa using hpos
    · rw [loopIters, if_pos hpos] at hj
      have hrec := ih (fs - BYTES P k) (by omega) (j - 1) (by omega)
      have hc : ((j - 1 : Nat) : Int) = (j : Int) - 1 := by omega
      rw [hc] at hrec
      have : fs - BYTES P k - ((j:Int) - 1) * BYTES P k = fs - (j:Int) * BYTES P k := by
        ring
      omega

theorem levelsOf_le_three (P : FSParams) (fs : Int) : levelsOf P fs ≤ 3 := by
  rw [levelsOf]
  split
  · omega
  · split
    · omega
    · split
      · omega
      · split <;> omega

theorem levelsOf_succ_le (P : FSParams) {sz : Int} {k : Nat} (h1 : 1 ≤ k)
    (h4 : k ≤ 4) (hsz : sz ≤ BYTES P k) : levelsOf P sz + 1 ≤ k := by
  rw [levelsOf]
  split_ifs with g4 g3 g2 g1
  · have hk4 : BYTES P k ≤ BYTES P 4 := BYTES_le_BYTES P h4
    omega
  · by_contra hc
    have hk3 : BYTES P k ≤ BYTES P 3 := BYTES_le_BYTES P (by omega)
    omega
  · by_contra hc
    have hk2 : BYTES P k ≤ BYTES P 2 := BYTES_le_BYTES P (by omega)
    omega
  · by_contra hc
    have hk1 : BYTES P k ≤ BYTES P 1 := BYTES_le_BYTES P (by omega)
    omega
  · omega

theorem ByteToSector_direct (P : FSParams) (d : Int → FileHeaderData)
    (hdr : FileHeaderData) (h : ¬ hdr.numBytes > BYTES P 1) (o : Nat) :
    ∀ fuel, ByteToSector P d fuel hdr o = hdr.dataSectors (o / P.S) := by
  intro fuel
  cases fuel with
  | zero => rfl
  | succ f =>
    rw [ByteToSector, if_neg h]

/-- The contract a successful `Allocate` run satisfies: it succeeds, records
the requested size, consumes exactly `sectorDemand` clear sectors, performs a
disk/bitmap `AllocStep`, sets bit 0 as a side effect of first-fit claiming,
and translates every in-range offset to an allocated sector through any disk
that agrees with the final one on the newly claimed sectors. -/
def AllocateSpec (P : FSParams) (fs : Int) : Prop :=
  ∀ (st : AllocSt) (hdr : FileHeaderData) (ok : Bool) (stOut : AllocSt),
    0 ≤ fs → sectorDemand P fs ≤ st.bmp.numClear →
    Allocate P fs st = (hdr, ok, stOut) →
    ok = true ∧
    hdr.numBytes = fs ∧
    hdr.numSectors = divRoundUp fs (P.S : Int) ∧
    stOut.bmp.numClear + sectorDemand P fs = st.bmp.numClear ∧
    AllocStep st stOut ∧
    (0 < fs → stOut.bmp.test 0 = true) ∧
    (∀ d2 : Int → FileHeaderData,
      (∀ s, Bitmap.Newly st.bmp stOut.bmp s → d2 s = stOut.disk s) →
      ∀ fuel, levelsOf P fs ≤ fuel → ∀ o : Nat, (o : Int) < fs →
        stOut.bmp.test (ByteToSector P d2 fuel hdr o) = true)

/-- The contract of one `AllocateLevelLoop` run at level `k`. -/
def LevelLoopConcl (P : FSParams) (k : Nat) (fs : Int) (ds : Nat → Int)
    (i : Nat) (st : AllocSt) (dsOut : Nat → Int) (fsOut : Int)
    (stOut : AllocSt) : Prop :=
  fsOut ≤ 0 ∧
  stOut.bmp.numClear + sectorDemandLoop P k fs = st.bmp.numClear ∧
  AllocStep st stOut ∧
  (∀ j, (j < i ∨ i + loopIters P fs k ≤ j) → dsOut j = ds j) ∧
  (0 < fs → stOut.bmp.test 0 = true) ∧
  (∀ j, j < loopIters P fs k →
    Bitmap.Newly st.bmp stOut.bmp (dsOut (i + j)) ∧
    (stOut.disk (dsOut (i + j))).numBytes =
      min (fs - (j : Int) * BYTES P k) (BYTES P k) ∧
    (∀ d2 : Int → FileHeaderData,
      (∀ s, Bitmap.Newly st.bmp stOut.bmp s → d2 s = stOut.disk s) →
      ∀ fuel, levelsOf P (min (fs - (j : Int) * BYTES P k) (BYTES P k)) ≤ fuel →
      ∀ o : Nat, (o : Int) < min (fs - (j : Int) * BYTES P k) (BYTES P k) →
        stOut.bmp.test (ByteToSector P d2 fuel (stOut.disk (dsOut (i + j))) o) = true))

theorem levelLoop_nonpos (P : FSParams) (k : Nat) {fs : Int}
    (hnp : ¬ fs > 0) (ds : Nat → Int) (i : Nat) (st : AllocSt)
    {dsOut : Nat → Int} {fsOut : Int} {stOut : AllocSt}
    (heq : AllocateLevelLoop P k fs ds i st = (dsOut, fsOut, stOut)) :
    LevelLoopConcl P k fs ds i st dsOut fsOut stOut := by
  rw [AllocateLevelLoop.eq_def, if_neg hnp] at heq
  injection heq with h1 hrest
  injection hrest with h2 h3
  subst h1
  subst h2
  subst h3
  have hsd : sectorDemandLoop P k fs = 0 := by
    rw [sectorDemandLoop.eq_def, if_neg hnp]
  have hit : loopIters P fs k = 0 := loopIters_nonpos P k hnp
  refine ⟨by omega, by omega, AllocStep_refl _, fun j _ => rfl, by omega, ?_⟩
  intro j hj
  rw [hit] at hj
  omega

theorem levelLoop_spec (P : FSParams) (k : Nat)
    (HA : ∀ sz : Int, 0 ≤ sz → sz ≤ BYTES P k → AllocateSpec P sz) :
    ∀ (n : Nat) (fs : Int), fs.toNat ≤ n →
    ∀ (ds : Nat → Int) (i : Nat) (st : AllocSt) (dsOut : Nat → Int)
      (fsOut : Int) (stOut : AllocSt),
      sectorDemandLoop P k fs ≤ st.bmp.numClear →
      AllocateLevelLoop P k fs ds i st = (dsOut, fsOut, stOut) →
      LevelLoopConcl P k fs ds i st dsOut fsOut stOut := by
  intro n
  induction n with
  | zero =>
    intro fs hn ds i st dsOut fsOut stOut _ heq
    exact levelLoop_nonpos P k (by omega) ds i st heq
  | succ n ih =>
    intro fs hn ds i st dsOut fsOut stOut hle heq
    by_cases hpos : fs > 0
    case neg => exact levelLoop_nonpos P k hpos ds i st heq
    have hcapp := BYTES_pos P k
    rw [sectorDemandLoop.eq_def, if_pos hpos] at hle
    have hncpos : 0 < st.bmp.numClear := by omega
    obtain ⟨hp0, hplt, hpclear, hpcnt, hpext, hptest, hpother, hpbit0⟩ :=
      st.bmp.findAndSet_spec hncpos
    set p := st.bmp.findAndSet with hp
    set st1 : AllocSt := ⟨p.2, st.disk, st.cleaned⟩ with hst1
    set sz := min fs (BYTES P k) with hszdef
    set cres := Allocate P sz st1 with hcres
    set st2 : AllocSt :=
      ⟨cres.2.2.bmp, writeSector cres.2.2.disk p.1 cres.1, cres.2.2.cleaned⟩
      with hst2
    have hunf : AllocateLevelLoop P k fs ds i st =
        AllocateLevelLoop P k (fs - BYTES P k) (updDS ds i p.1) (i + 1) st2 := by
      conv_lhs => rw [AllocateLevelLoop.eq_def]
      rw [if_pos hpos]
    rw [hunf] at heq
    have hsz0 : 0 ≤ sz := le_of_lt (lt_min hpos hcapp)
    have hszle : sz ≤ BYTES P k := min_le_right _ _
    have hb1 : st1.bmp.numClear = p.2.numClear := rfl
    have hdem_child : sectorDemand P sz ≤ st1.bmp.numClear := by
      rw [hb1]
      omega
    obtain ⟨hcok, hcnb, hcns, hccnt, hcstep, hcbit0, hctrans⟩ :=
      HA sz hsz0 hszle st1 cres.1 cres.2.1 cres.2.2 hsz0 hdem_child rfl
    have hb2 : st2.bmp = cres.2.2.bmp := rfl
    have hst2clear : sectorDemandLoop P k (fs - BYTES P k) ≤ st2.bmp.numClear := by
      rw [hb2]
      rw [hb1] at hccnt
      omega
    obtain ⟨ih1, ih2, ih3, ih4, ih5, ih6⟩ :=
      ih (fs - BYTES P k) (by omega) (updDS ds i p.1) (i + 1) st2 dsOut fsOut
        stOut hst2clear heq
    have hstep02 : AllocStep st st2 :=
      @allocStep_claim_write st st1 cres.2.2 p.1 hpext.1 hptest hpclear hpother
        rfl rfl hcstep cres.1
    have hstepfull : AllocStep st stOut := AllocStep_trans hstep02 ih3
    have hit : loopIters P fs k = loopIters P (fs - BYTES P k) k + 1 := by
      rw [loopIters, if_pos hpos]
    have hds_at_i : dsOut i = p.1 := by
      have h := ih4 i (Or.inl (by omega))
      rw [h]
      simp [updDS]
    have hp1_test2 : st2.bmp.test p.1 = true := by
      rw [hb2]
      exact hcstep.1.2 p.1 hptest
    have hp1_testOut : stOut.bmp.test p.1 = true := ih3.1.2 p.1 hp1_test2
    have hnewp : Bitmap.Newly st.bmp stOut.bmp p.1 := ⟨hp1_testOut, hpclear⟩
    have hdisk2_p : st2.disk p.1 = cres.1 := by
      show writeSector cres.2.2.disk p.1 cres.1 p.1 = cres.1
      simp [writeSector]
    have hdiskOut_p : stOut.disk p.1 = cres.1 := by
      have hnn : ¬ Bitmap.Newly st2.bmp stOut.bmp p.1 := by
        intro hcon
        have hx : st2.bmp.test p.1 = false := hcon.2
        rw [hp1_test2] at hx
        cases hx
      rw [ih3.2.1 p.1 hnn, hdisk2_p]
    refine ⟨ih1, ?_, hstepfull, ?_, ?_, ?_⟩
    · rw [sectorDemandLoop.eq_def, if_pos hpos, ← hszdef]
      rw [hb2] at ih2
      rw [hb1] at hccnt
      omega
    · intro j hj
      rw [hit] at hj
      rcases hj with hlt | hge
      · have h := ih4 j (Or.inl (by omega))
        rw [h]
        simp only [updDS]
        rw [if_neg (by omega)]
      · have h := ih4 j (Or.inr (by omega))
        rw [h]
        simp only [updDS]
        rw [if_neg (by omega)]
    · intro _
      have h2 : st2.bmp.test 0 = true := by
        rw [hb2]
        exact hcstep.1.2 0 hpbit0
      exact ih3.1.2 0 h2
    · intro j hj
      rw [hit] at hj
      rcases Nat.eq_zero_or_pos j with rfl | hjpos
      · rw [Nat.add_zero, hds_at_i]
        have hszeq : min (fs - (0 : Nat) * BYTES P k) (BYTES P k) = sz := by
          rw [hszdef]
          norm_num
        rw [hszeq, hdiskOut_p]
        refine ⟨hnewp, by rw [hcnb], ?_⟩
        intro d2 hd2 fuel hfuel o ho
        have htest := hctrans d2 ?_ fuel hfuel o ho
        · exact ih3.1.2 _ htest
        · intro s hs
          have hs_ne_p : s ≠ p.1 := by
            intro hcon
            have hx : p.2.test p.1 = false := by
              have hy := hs.2
              rw [hcon] at hy
              exact hy
            rw [hptest] at hx
            cases hx
          have hnew_glob : Bitmap.Newly st.bmp stOut.bmp s := by
            refine ⟨?_, ?_⟩
            · have h1 : st2.bmp.test s = true := by
                rw [hb2]
                exact hs.1
              exact ih3.1.2 s h1
            · rw [← hpother s hs_ne_p]
              exact hs.2
          have hd2s := hd2 s hnew_glob
          have hnn2 : ¬ Bitmap.Newly st2.bmp stOut.bmp s := by
            intro hcon
            have hx : st2.bmp.test s = false := hcon.2
            rw [hb2] at hx
            rw [hs.1] at hx
            cases hx
          have hfr := ih3.2.1 s hnn2
          have hw : st2.disk s = cres.2.2.disk s := by
            show writeSector cres.2.2.disk p.1 cres.1 s = cres.2.2.disk s
            simp [writeSector, hs_ne_p]
          rw [hd2s, hfr, hw]
      · obtain ⟨j', rfl⟩ : ∃ j', j = j' + 1 := ⟨j - 1, by omega⟩
        have hj' : j' < loopIters P (fs - BYTES P k) k := by omega
        have harith : i + (j' + 1) = i + 1 + j' := by omega
        have hsize : min (fs - BYTES P k - (j' : Int) * BYTES P k) (BYTES P k) =
            min (fs - ((j' + 1 : Nat) : Int) * BYTES P k) (BYTES P k) := by
          have hc : ((j' + 1 : Nat) : Int) = (j' : Int) + 1 := by omega
          rw [hc]
          ring_nf
        obtain ⟨ih6a, ih6b, ih6c⟩ := ih6 j' hj'
        rw [harith]
        refine ⟨Bitmap.Newly.mono_left hstep02.1 ih6a, by rw [← hsize, ih6b], ?_⟩
        intro d2 hd2 fuel hfuel o ho
        apply ih6c d2 ?_ fuel (by rw [hsize]; exact hfuel) o (by rw [hsize]; exact ho)
        intro s hs
        exact hd2 s (Bitmap.Newly.mono_left hstep02.1 hs)

theorem sectorDemand_direct (P : FSParams) {fs : Int} (h1 : ¬ fs > BYTES P 1) :
    sectorDemand P fs = (divRoundUp fs (P.S : Int)).toNat := by
  have h12 := BYTES_le_BYTES P (show 1 ≤ 2 by omega)
  have h13 := BYTES_le_BYTES P (show 1 ≤ 3 by omega)
  have h14 := BYTES_le_BYTES P (show 1 ≤ 4 by omega)
  rw [sectorDemand.eq_def, if_neg (by omega), if_neg (by omega),
    if_neg (by omega), if_neg h1]

theorem ceil_pos_of_pos (P : FSParams) {fs : Int} (h0 : 0 ≤ fs) (hp : 0 < fs) :
    1 ≤ (divRoundUp fs (P.S : Int)).toNat := by
  rw [divRoundUp_toNat_of_nonneg P fs h0]
  rw [Nat.one_le_div_iff P.hS]
  have := P.hS
  omega

theorem div_lt_ceil (P : FSParams) (o t : Nat) (ho : o < t) :
    o / P.S < (t + P.S - 1) / P.S := by
  have hS := P.hS
  have h1 : t + P.S - 1 = (t - 1) + P.S := by omega
  rw [h1, Nat.add_div_right _ hS]
  have h2 : o / P.S ≤ (t - 1) / P.S := Nat.div_le_div_right (by omega)
  omega

theorem allocate_spec_direct (P : FSParams) (fs : Int)
    (hd : ¬ fs > BYTES P 1) : AllocateSpec P fs := by
  intro st hdr ok stOut h0 hdem heq
  have hsd := sectorDemand_direct P hd
  have hns0 : 0 ≤ divRoundUp fs (P.S : Int) := divRoundUp_nonneg_of_nonneg P fs h0
  have hguard : ¬ ((st.bmp.numClear : Int) < divRoundUp fs (P.S : Int)) := by
    rw [hsd] at hdem
    omega
  have hb1 := BYTES_pos P 1
  have h4 : ¬ fs > BYTES P 4 := by
    have := BYTES_le_BYTES P (show 1 ≤ 4 by omega)
    omega
  have h3 : ¬ fs > BYTES P 3 := by
    have := BYTES_le_BYTES P (show 1 ≤ 3 by omega)
    omega
  have h2 : ¬ fs > BYTES P 2 := by
    have := BYTES_le_BYTES P (show 1 ≤ 2 by omega)
    omega
  rw [Allocate.eq_def] at heq
  simp only [if_neg hguard, if_neg h4, if_neg h3, if_neg h2, if_neg hd] at heq
  rcases hq : directLoop (divRoundUp fs (P.S : Int)).toNat 0 freshDS st with ⟨dsO, stO⟩
  rw [hq] at heq
  have heq2 : ((⟨fs, divRoundUp fs (P.S : Int), dsO⟩ : FileHeaderData), true, stO)
      = (hdr, ok, stOut) := heq
  injection heq2 with hhdr hrest
  injection hrest with hok hstout
  subst hok
  subst hstout
  have hcount : (divRoundUp fs (P.S : Int)).toNat ≤ st.bmp.numClear := by
    rw [hsd] at hdem
    exact hdem
  obtain ⟨⟨hcnt, hext⟩, hdsfr, hnewzero, hdistinct, hdiskfr, hclean, hbit0⟩ :=
    directLoop_spec _ 0 freshDS st dsO stO hcount hq
  refine ⟨rfl, ?_, ?_, ?_, ?_, ?_, ?_⟩
  · rw [← hhdr]
  · rw [← hhdr]
  · rw [hsd]
    omega
  · exact ⟨hext, hdiskfr, hclean⟩
  · intro hpos
    apply hbit0
    exact ceil_pos_of_pos P h0 hpos
  · intro d2 _ fuel _ o ho
    have hdirhdr : ¬ hdr.numBytes > BYTES P 1 := by
      rw [← hhdr]
      exact hd
    rw [ByteToSector_direct P d2 hdr hdirhdr o fuel]
    have hds : hdr.dataSectors = dsO := by
      rw [← hhdr]
    rw [hds]
    have hlt : o / P.S < (divRoundUp fs (P.S : Int)).toNat := by
      rw [divRoundUp_toNat_of_nonneg P fs h0]
      exact div_lt_ceil P o fs.toNat (by omega)
    have := hnewzero (o / P.S) hlt
    rw [Nat.zero_add] at this
    exact this.1.1

theorem ByteToSector_level_step (P : FSParams) (k : Nat) (hk1 : 1 ≤ k)
    (hk3 : k ≤ 3) {nb : Int} (hgt : nb > BYTES P k)
    (hlek1 : nb ≤ BYTES P (k + 1)) (d2 : Int → FileHeaderData) (f : Nat)
    (hdr : FileHeaderData) (hnb : hdr.numBytes = nb) (o : Nat) :
    ByteToSector P d2 (f + 1) hdr o =
      ByteToSector P d2 f (d2 (hdr.dataSectors (o / BYTESn P k)))
        (o - BYTESn P k * (o / BYTESn P k)) := by
  have hb1 : hdr.numBytes > BYTES P 1 := by
    rw [hnb]
    have := BYTES_le_BYTES P hk1
    omega
  rw [ByteToSector, if_pos hb1]
  interval_cases k
  · have hle2 : nb ≤ BYTES P 2 := hlek1
    have h4 : ¬ hdr.numBytes > BYTES P 4 := by
      rw [hnb]
      have := BYTES_le_BYTES P (show 2 ≤ 4 by omega)
      omega
    have h3 : ¬ hdr.numBytes > BYTES P 3 := by
      rw [hnb]
      have := BYTES_le_BYTES P (show 2 ≤ 3 by omega)
      omega
    have h2 : ¬ hdr.numBytes > BYTES P 2 := by
      rw [hnb]
      omega
    simp only [if_neg h4, if_neg h3, if_neg h2]
  · have hle3 : nb ≤ BYTES P 3 := hlek1
    have h4 : ¬ hdr.numBytes > BYTES P 4 := by
      rw [hnb]
      have := BYTES_le_BYTES P (show 3 ≤ 4 by omega)
      omega
    have h3 : ¬ hdr.numBytes > BYTES P 3 := by
      rw [hnb]
      omega
    have h2 : hdr.numBytes > BYTES P 2 := by
      rw [hnb]
      exact hgt
    simp only [if_neg h4, if_neg h3, if_pos h2]
  · have hle4 : nb ≤ BYTES P 4 := hlek1
    have h4 : ¬ hdr.numBytes > BYTES P 4 := by
      rw [hnb]
      omega
    have h3 : hdr.numBytes > BYTES P 3 := by
      rw [hnb]
      exact hgt
    simp only [if_neg h4, if_pos h3]

theorem allocate_spec_level (P : FSParams) (k : Nat) (hk1 : 1 ≤ k)
    (hk3 : k ≤ 3) (fs : Int) (h0 : 0 ≤ fs) (hgt : fs > BYTES P k)
    (hlek1 : fs ≤ BYTES P (k + 1))
    (hsd : sectorDemand P fs = sectorDemandLoop P k fs)
    (hlevels : levelsOf P fs = k)
    (hunf : ∀ st : AllocSt,
      ¬ ((st.bmp.numClear : Int) < divRoundUp fs (P.S : Int)) →
      Allocate P fs st =
        (⟨fs, divRoundUp fs (P.S : Int), (AllocateLevelLoop P k fs freshDS 0 st).1⟩,
          true, (AllocateLevelLoop P k fs freshDS 0 st).2.2))
    (HA : ∀ sz : Int, 0 ≤ sz → sz ≤ BYTES P k → AllocateSpec P sz) :
    AllocateSpec P fs := by
  intro st hdr ok stOut h0x hdem heq
  have hceil := sectorDemand_ge_ceil P fs.toNat fs (le_refl _) h0
  have hns0 := divRoundUp_nonneg_of_nonneg P fs h0
  have hguard : ¬ ((st.bmp.numClear : Int) < divRoundUp fs (P.S : Int)) := by
    have h1 : (divRoundUp fs (P.S : Int)) =
        ((divRoundUp fs (P.S : Int)).toNat : Int) := (Int.toNat_of_nonneg hns0).symm
    omega
  rw [hunf st hguard] at heq
  rcases hq : AllocateLevelLoop P k fs freshDS 0 st with ⟨dsO, fsO, stO⟩
  rw [hq] at heq
  have heq2 : ((⟨fs, divRoundUp fs (P.S : Int), dsO⟩ : FileHeaderData), true, stO)
      = (hdr, ok, stOut) := heq
  injection heq2 with hhdr hrest
  injection hrest with hok hstout
  subst hok
  subst hstout
  have hdemL : sectorDemandLoop P k fs ≤ st.bmp.numClear := by
    rw [hsd] at hdem
    exact hdem
  obtain ⟨_l1, l2, l3, _l4, l5, l6⟩ :=
    levelLoop_spec P k HA fs.toNat fs (le_refl _) freshDS 0 st dsO fsO stO hdemL hq
  refine ⟨rfl, by rw [← hhdr], by rw [← hhdr], by rw [hsd]; exact l2, l3, l5, ?_⟩
  intro d2 hd2 fuel hfuel o ho
  rw [hlevels] at hfuel
  obtain ⟨f, rfl⟩ : ∃ f, fuel = f + 1 := ⟨fuel - 1, by omega⟩
  have hnbh : hdr.numBytes = fs := by rw [← hhdr]
  rw [ByteToSector_level_step P k hk1 hk3 hgt hlek1 d2 f hdr hnbh o]
  set entry := o / BYTESn P k with hentrydef
  have hentry : entry < loopIters P fs k :=
    entry_lt_loopIters P k fs.toNat fs (le_refl _) o ho
  obtain ⟨l6a, l6b, l6c⟩ := l6 entry hentry
  rw [Nat.zero_add] at l6a l6b l6c
  have hdsOentry : hdr.dataSectors entry = dsO entry := by rw [← hhdr]
  have hd2e : d2 (dsO entry) = stO.disk (dsO entry) := hd2 _ l6a
  rw [hdsOentry, hd2e]
  have hcapn := BYTESn_pos P k
  have hdm := Nat.div_add_mod o (BYTESn P k)
  rw [← hentrydef] at hdm
  have hooff : o - BYTESn P k * entry = o % BYTESn P k := by omega
  have hoff_lt : ((o % BYTESn P k : Nat) : Int) <
      min (fs - (entry : Int) * BYTES P k) (BYTES P k) := by
    apply lt_min
    · have key : fs - (entry : Int) * BYTES P k =
          fs - ((BYTESn P k * entry : Nat) : Int) := by
        simp only [BYTES]
        push_cast
        ring
      rw [key]
      generalize hgen : BYTESn P k * entry = m at hdm ⊢
      generalize hgen2 : o % BYTESn P k = r at hdm ⊢
      omega
    · have hmod : o % BYTESn P k < BYTESn P k := Nat.mod_lt o hcapn
      simp only [BYTES]
      exact_mod_cast hmod
  rw [hooff]
  apply l6c d2 hd2 f ?_ (o % BYTESn P k) hoff_lt
  have hlev : levelsOf P (min (fs - (entry : Int) * BYTES P k) (BYTES P k)) + 1 ≤ k :=
    levelsOf_succ_le P hk1 (by omega) (min_le_right _ _)
  omega

theorem allocate_spec_over4 (P : FSParams) (fs : Int) (h0 : 0 ≤ fs)
    (h4 : fs > BYTES P 4)
    (HA : ∀ sz : Int, 0 ≤ sz → sz ≤ BYTES P 4 → AllocateSpec P sz) :
    AllocateSpec P fs := by
  intro st hdr ok stOut h0x hdem heq
  have hsd : sectorDemand P fs =
      sectorDemandLoop P 4 fs + (divRoundUp fs (P.S : Int)).toNat := by
    rw [sectorDemand.eq_def, if_pos h4]
  have hns0 := divRoundUp_nonneg_of_nonneg P fs h0
  have hguard : ¬ ((st.bmp.numClear : Int) < divRoundUp fs (P.S : Int)) := by
    have h1 : divRoundUp fs (P.S : Int) =
        ((divRoundUp fs (P.S : Int)).toNat : Int) := (Int.toNat_of_nonneg hns0).symm
    rw [hsd] at hdem
    omega
  rw [Allocate.eq_def] at heq
  rcases hq : AllocateLevelLoop P 4 fs freshDS 0 st with ⟨ds1, fs1, st1⟩
  have hdemL : sectorDemandLoop P 4 fs ≤ st.bmp.numClear := by
    rw [hsd] at hdem
    omega
  obtain ⟨l1, l2, l3, _l4, l5, _l6⟩ :=
    levelLoop_spec P 4 HA fs.toNat fs (le_refl _) freshDS 0 st ds1 fs1 st1 hdemL hq
  have hB3 := BYTES_pos P 3
  have hB2 := BYTES_pos P 2
  have hB1 := BYTES_pos P 1
  have hn3 : ¬ fs1 > BYTES P 3 := by omega
  have hn2 : ¬ fs1 > BYTES P 2 := by omega
  have hn1 : ¬ fs1 > BYTES P 1 := by omega
  simp only [if_neg hguard, if_pos h4, hq, if_neg hn3, if_neg hn2, if_neg hn1] at heq
  rcases hq2 : directLoop (divRoundUp fs (P.S : Int)).toNat 0 ds1 st1 with ⟨ds2, st2⟩
  rw [hq2] at heq
  have heq2 : ((⟨fs, divRoundUp fs (P.S : Int), ds2⟩ : FileHeaderData), true, st2)
      = (hdr, ok, stOut) := heq
  injection heq2 with hhdr hrest
  injection hrest with hok hstout
  subst hok
  subst hstout
  have hcount : (divRoundUp fs (P.S : Int)).toNat ≤ st1.bmp.numClear := by
    rw [hsd] at hdem
    omega
  obtain ⟨⟨dcnt, dext⟩, _ddsfr, dnewzero, _ddist, ddiskfr, dclean, _dbit0⟩ :=
    directLoop_spec _ 0 ds1 st1 ds2 st2 hcount hq2
  refine ⟨rfl, by rw [← hhdr], by rw [← hhdr], ?_, ?_, ?_, ?_⟩
  · rw [hsd]
    omega
  · exact AllocStep_trans l3 ⟨dext, ddiskfr, dclean⟩
  · intro hpos
    exact dext.2 0 (l5 hpos)
  · intro d2 hd2 fuel hfuel o ho
    have hlev : levelsOf P fs = 1 := by rw [levelsOf, if_pos h4]
    rw [hlev] at hfuel
    obtain ⟨f, rfl⟩ : ∃ f, fuel = f + 1 := ⟨fuel - 1, by omega⟩
    have hnbh : hdr.numBytes = fs := by rw [← hhdr]
    have hb1h : hdr.numBytes > BYTES P 1 := by
      rw [hnbh]
      have := BYTES_le_BYTES P (show 1 ≤ 4 by omega)
      omega
    have hgt4 : hdr.numBytes > BYTES P 4 := by
      rw [hnbh]
      exact h4
    rw [ByteToSector, if_pos hb1h]
    simp only [if_pos hgt4]
    have hox : o < fs.toNat := by omega
    have hcapS : P.S ≤ BYTESn P 4 := by
      have h1 : 1 ≤ P.ND ^ 4 := Nat.one_le_pow _ _ (by have := P.hND; omega)
      have : 1 * P.S ≤ P.ND ^ 4 * P.S := Nat.mul_le_mul_right _ h1
      simpa [BYTESn] using this
    have hentry_lt : o / BYTESn P 4 < (divRoundUp fs (P.S : Int)).toNat := by
      rw [divRoundUp_toNat_of_nonneg P fs h0]
      have ha : o / BYTESn P 4 ≤ o / P.S := Nat.div_le_div_left hcapS P.hS
      have hb : o / P.S < (fs.toNat + P.S - 1) / P.S := div_lt_ceil P o fs.toNat hox
      omega
    obtain ⟨dnew, dzero⟩ := dnewzero (o / BYTESn P 4) hentry_lt
    rw [Nat.zero_add] at dnew dzero
    have hdse : hdr.dataSectors (o / BYTESn P 4) = ds2 (o / BYTESn P 4) := by
      rw [← hhdr]
    rw [hdse]
    have hnewG : Bitmap.Newly st.bmp st2.bmp (ds2 (o / BYTESn P 4)) :=
      Bitmap.Newly.mono_left l3.1 dnew
    rw [hd2 _ hnewG, dzero]
    have hzh : ¬ zeroHeader.numBytes > BYTES P 1 := by
      have := BYTES_pos P 1
      show ¬ (0 : Int) > BYTES P 1
      omega
    rw [ByteToSector_direct P d2 zeroHeader hzh _ f]
    show st2.bmp.test 0 = true
    exact dext.2 0 (l5 (by omega))

theorem Allocate_spec_all (P : FSParams) :
    ∀ (n : Nat) (fs : Int), fs.toNat ≤ n → AllocateSpec P fs := by
  intro n
  induction n with
  | zero =>
    intro fs hn st hdr ok stOut h0 hdem heq
    have hfs0 : fs = 0 := by omega
    subst hfs0
    exact allocate_spec_direct P 0 (by have := BYTES_pos P 1; omega)
      st hdr ok stOut h0 hdem heq
  | succ n ih =>
    intro fs hn
    by_cases h4 : fs > BYTES P 4
    · have h0 : 0 ≤ fs := by
        have := BYTES_pos P 4
        omega
      refine allocate_spec_over4 P fs h0 h4 ?_
      intro sz hsz0 hszle
      apply ih
      omega
    · by_cases h3 : fs > BYTES P 3
      · have h0 : 0 ≤ fs := by
          have := BYTES_pos P 3
          omega
        refine allocate_spec_level P 3 (by omega) (by omega) fs h0 h3
          (show fs ≤ BYTES P 4 by omega) ?_ ?_ ?_ ?_
        · rw [sectorDemand.eq_def, if_neg h4, if_pos h3]
        · rw [levelsOf, if_neg h4, if_pos h3]
        · intro st hg
          rw [Allocate.eq_def]
          simp only [if_neg hg, if_neg h4, if_pos h3]
        · intro sz hsz0 hszle
          apply ih
          omega
      · by_cases h2 : fs > BYTES P 2
        · have h0 : 0 ≤ fs := by
            have := BYTES_pos P 2
            omega
          refine allocate_spec_level P 2 (by omega) (by omega) fs h0 h2
            (show fs ≤ BYTES P 3 by omega) ?_ ?_ ?_ ?_
          · rw [sectorDemand.eq_def, if_neg h4, if_neg h3, if_pos h2]
          · rw [levelsOf, if_neg h4, if_neg h3, if_pos h2]
          · intro st hg
            rw [Allocate.eq_def]
            simp only [if_neg hg, if_neg h4, if_neg h3, if_pos h2]
          · intro sz hsz0 hszle
            apply ih
            omega
        · by_cases h1 : fs > BYTES P 1
          · have h0 : 0 ≤ fs := by
              have := BYTES_pos P 1
              omega
            refine allocate_spec_level P 1 (by omega) (by omega) fs h0 h1
              (show fs ≤ BYTES P 2 by omega) ?_ ?_ ?_ ?_
            · rw [sectorDemand.eq_def, if_neg h4, if_neg h3, if_neg h2, if_pos h1]
            · rw [levelsOf, if_neg h4, if_neg h3, if_neg h2, if_pos h1]
            · intro st hg
              rw [Allocate.eq_def]
              simp only [if_neg hg, if_neg h4, if_neg h3, if_neg h2, if_pos h1]
            · intro sz hsz0 hszle
              apply ih
              omega
          · exact allocate_spec_direct P fs h1

/-! ## Auxiliary bitmap lemmas for deallocation -/

theorem Bitmap.test_eq_true (b : Bitmap) {s : Int} :
    b.test s = true ↔ 0 ≤ s ∧ s.toNat < b.numBits ∧ b.bits s.toNat = true := by
  simp [Bitmap.test, and_assoc]

theorem Bitmap.test_clearBit_of_ne (b : Bitmap) {s t : Int} (hne : t ≠ s)
    (hs0 : 0 ≤ s) : (b.clearBit s).test t = b.test t := by
  rw [Bitmap.clearBit]
  split
  · rcases le_or_lt 0 t with ht0 | ht0
    · have htn : t.toNat ≠ s.toNat := by omega
      simp only [Bitmap.test]
      congr 1
      simp [htn]
    · simp [Bitmap.test, show ¬ (0 ≤ t) by omega]
  · rfl

theorem DeallocateDirect_count :
    ∀ (c i : Nat) (ds : Nat → Int) (bmp : Bitmap),
    (∀ j, j < c → bmp.test (ds (i + j)) = true) →
    (∀ j1 j2, j1 < c → j2 < c → j1 ≠ j2 → ds (i + j1) ≠ ds (i + j2)) →
    (DeallocateDirect ds c i bmp).1.numClear = bmp.numClear + c := by
  intro c
  induction c with
  | zero =>
    intro i ds bmp _ _
    simp [DeallocateDirect]
  | succ c ih =>
    intro i ds bmp htest hdist
    have h0 := htest 0 (by omega)
    rw [Nat.add_zero] at h0
    obtain ⟨hs0, hslt, hsbits⟩ := (bmp.test_eq_true).mp h0
    have hcb : (bmp.clearBit (ds i)).numClear = bmp.numClear + 1 :=
      bmp.numClear_clearBit hs0 hslt hsbits
    have htest2 : ∀ j, j < c → (bmp.clearBit (ds i)).test (ds (i + 1 + j)) = true := by
      intro j hj
      have hne : ds (i + 1 + j) ≠ ds i := by
        have := hdist (j + 1) 0 (by omega) (by omega) (by omega)
        rw [Nat.add_zero] at this
        have harith : i + (j + 1) = i + 1 + j := by omega
        rw [harith] at this
        exact this
      rw [bmp.test_clearBit_of_ne hne hs0]
      have := htest (j + 1) (by omega)
      have harith : i + (j + 1) = i + 1 + j := by omega
      rw [harith] at this
      exact this
    have hdist2 : ∀ j1 j2, j1 < c → j2 < c → j1 ≠ j2 →
        ds (i + 1 + j1) ≠ ds (i + 1 + j2) := by
      intro j1 j2 hj1 hj2 hne
      have := hdist (j1 + 1) (j2 + 1) (by omega) (by omega) (by omega)
      have ha1 : i + (j1 + 1) = i + 1 + j1 := by omega
      have ha2 : i + (j2 + 1) = i + 1 + j2 := by omega
      rw [ha1, ha2] at this
      exact this
    have ihapp := ih (i + 1) ds (bmp.clearBit (ds i)) htest2 hdist2
    show (DeallocateDirect ds c (i + 1) (bmp.clearBit (ds i))).1.numClear =
      bmp.numClear + (c + 1)
    omega

/-! ## Concrete fixtures used by witnesses and counterexamples -/

/-- A small parameter instance: one-byte sectors, two pointer slots, so
`BYTES_1LEVEL = 2`, `BYTES_2LEVEL = 4`, `BYTES_3LEVEL = 8`, `BYTES_4LEVEL = 16`. -/
def P0 : FSParams := ⟨1, 2, by decide, by decide⟩

/-- An empty 8-sector free map. -/
def bmp8 : Bitmap := ⟨8, fun _ => false⟩

/-- Allocation state over `bmp8` with an all-zero disk and no clean trace. -/
def st8 : AllocSt := ⟨bmp8, fun _ => zeroHeader, []⟩

/-- An empty 64-sector free map. -/
def bmp64 : Bitmap := ⟨64, fun _ => false⟩

/-- Allocation state over `bmp64`. -/
def st64 : AllocSt := ⟨bmp64, fun _ => zeroHeader, []⟩

/-! ## Claim C1 -/

/-- C1: for every file header successfully allocated with target size `n` on
a bitmap with enough clear sectors (`sectorDemand` many), `FileLength`
returns exactly `n`, and for every offset `0 ≤ o < n`, `ByteToSector` — the
threshold-ladder translation reading child headers back from disk — returns
a sector that is marked allocated in the bitmap. -/
theorem claim1_allocate_fileLength_byteToSector (P : FSParams) (n : Nat)
    (st : AllocSt) (hen : sectorDemand P (n : Int) ≤ st.bmp.numClear) :
    (Allocate P (n : Int) st).2.1 = true ∧
    FileLength (Allocate P (n : Int) st).1 = (n : Int) ∧
    ∀ o : Nat, o < n →
      (Allocate P (n : Int) st).2.2.bmp.test
        (ByteToSector P (Allocate P (n : Int) st).2.2.disk 4
          (Allocate P (n : Int) st).1 o) = true := by
  obtain ⟨hok, hnb, _hns, _hcnt, _hstep, _hbit0, htrans⟩ :=
    Allocate_spec_all P ((n : Int)).toNat (n : Int) (le_refl _) st
      (Allocate P (n : Int) st).1 (Allocate P (n : Int) st).2.1
      (Allocate P (n : Int) st).2.2 (Int.ofNat_nonneg n) hen rfl
  refine ⟨hok, hnb, ?_⟩
  intro o ho
  refine htrans (Allocate P (n : Int) st).2.2.disk (fun s _ => rfl) 4 ?_ o
    (by exact_mod_cast ho)
  have := levelsOf_le_three P (n : Int)
  omega

unseal sectorDemand sectorDemandLoop in
/-- Witness for C1 at a concrete input: parameters `P0`, eight clear
sectors, target size 3 (two-level file). -/
theorem claim1_witness :
    sectorDemand P0 ((3 : Nat) : Int) ≤ st8.bmp.numClear ∧
    ((Allocate P0 ((3 : Nat) : Int) st8).2.1 = true ∧
      FileLength (Allocate P0 ((3 : Nat) : Int) st8).1 = ((3 : Nat) : Int) ∧
      ∀ o : Nat, o < 3 →
        (Allocate P0 ((3 : Nat) : Int) st8).2.2.bmp.test
          (ByteToSector P0 (Allocate P0 ((3 : Nat) : Int) st8).2.2.disk 4
            (Allocate P0 ((3 : Nat) : Int) st8).1 o) = true) :=
  ⟨by decide, claim1_allocate_fileLength_byteToSector P0 3 st8 (by decide)⟩

/-! ## Claim C4 -/

/-- C4: every sector passed to `CleanDiskSector` during a run of `Allocate`
(the `cleaned` trace, i.e. every data sector the direct-level branch claims
at any tree depth) is newly allocated in the bitmap and still zero-filled on
disk when the allocation returns: no stale data from a previously deleted
file is readable through the fresh sectors. -/
theorem claim4_cleaned_sectors_zero_filled (P : FSParams) (n : Nat)
    (st : AllocSt) (hen : sectorDemand P (n : Int) ≤ st.bmp.numClear)
    (hcl : st.cleaned = []) :
    ∀ s ∈ (Allocate P (n : Int) st).2.2.cleaned,
      Bitmap.Newly st.bmp (Allocate P (n : Int) st).2.2.bmp s ∧
      (Allocate P (n : Int) st).2.2.disk s = zeroHeader := by
  obtain ⟨_hok, _hnb, _hns, _hcnt, hstep, _hbit0, _htrans⟩ :=
    Allocate_spec_all P ((n : Int)).toNat (n : Int) (le_refl _) st
      (Allocate P (n : Int) st).1 (Allocate P (n : Int) st).2.1
      (Allocate P (n : Int) st).2.2 (Int.ofNat_nonneg n) hen rfl
  obtain ⟨_, _, Δ, hΔeq, hΔmem⟩ := hstep
  intro s hs
  rw [hΔeq, hcl, List.nil_append] at hs
  exact hΔmem s hs

unseal sectorDemand sectorDemandLoop in
/-- Witness for C4 at the concrete input of `claim1_witness`. -/
theorem claim4_witness :
    (sectorDemand P0 ((3 : Nat) : Int) ≤ st8.bmp.numClear ∧ st8.cleaned = []) ∧
    ∀ s ∈ (Allocate P0 ((3 : Nat) : Int) st8).2.2.cleaned,
      Bitmap.Newly st8.bmp (Allocate P0 ((3 : Nat) : Int) st8).2.2.bmp s ∧
      (Allocate P0 ((3 : Nat) : Int) st8).2.2.disk s = zeroHeader :=
  ⟨⟨by decide, rfl⟩,
    claim4_cleaned_sectors_zero_filled P0 3 st8 (by decide) rfl⟩

/-! ## Claim C5 -/

set_option maxRecDepth 10000 in
unseal Allocate AllocateLevelLoop in
/-- Counterexample for C5: at `P0` (thresholds 2/4/8/16), target size 17 >
`BYTES_4LEVEL` and a free map with 64 clear sectors, the transcribed
`Allocate` and the corrected single-ladder form leave the bitmap with
different numbers of clear sectors (14 vs 31), so they do not produce the
same bitmap state. -/
theorem claim5_counterexample :
    (Allocate P0 17 st64).2.2.bmp.numClear ≠
      (AllocateLadderSpec P0 17 st64).2.2.bmp.numClear := by
  decide

/-- C5 (amended): for every bitmap state and every target size that does not
exceed `BYTES_4LEVEL`, the transcribed `Allocate` and the corrected
mutually-exclusive ladder form driven by the original size produce exactly
the same header, return value and state; above `BYTES_4LEVEL` they differ
(see the counterexample). -/
theorem claim5_amended_ladder_equiv (P : FSParams) (fs : Int) (st : AllocSt)
    (hle : fs ≤ BYTES P 4) :
    Allocate P fs st = AllocateLadderSpec P fs st := by
  have h4 : ¬ fs > BYTES P 4 := by omega
  rw [Allocate.eq_def, AllocateLadderSpec.eq_def]
  simp only [if_neg h4]

/-- Witness for the amended C5 at a concrete input. -/
theorem claim5_witness :
    ((3 : Int) ≤ BYTES P0 4) ∧ Allocate P0 3 st8 = AllocateLadderSpec P0 3 st8 :=
  ⟨by decide, claim5_amended_ladder_equiv P0 3 st8 (by decide)⟩

/-! ## Claim C3 -/

set_option maxRecDepth 10000 in
unseal Allocate AllocateLevelLoop Deallocate DeallocateChildren in
/-- Counterexample for C3: allocating a two-level file of size 3 under `P0`
(8 clear sectors) consumes 5 sectors (3 data + 2 interior child headers),
but `Deallocate` clears only the 3 data sectors — the child index-node
sectors are never cleared — so the clear count is not restored. -/
theorem claim3_counterexample :
    (Deallocate P0 4 (Allocate P0 3 st8).1 (Allocate P0 3 st8).2.2.disk
      (Allocate P0 3 st8).2.2.bmp).1.numClear ≠ st8.bmp.numClear := by
  decide

/-- C3 (amended): for every target size that fits one direct level
(`n ≤ BYTES_1LEVEL`), `Allocate` followed by `Deallocate` restores the
bitmap's clear-sector count to its value before the allocation; for larger
sizes the interior index-node sectors are never cleared and the count is not
restored (see the counterexample). -/
theorem claim3_amended_direct_restore (P : FSParams) (n : Nat) (st : AllocSt)
    (fuel : Nat) (hle : (n : Int) ≤ BYTES P 1)
    (hen : sectorDemand P (n : Int) ≤ st.bmp.numClear) :
    (Deallocate P fuel (Allocate P (n : Int) st).1
      (Allocate P (n : Int) st).2.2.disk
      (Allocate P (n : Int) st).2.2.bmp).1.numClear = st.bmp.numClear := by
  have h0 : (0 : Int) ≤ (n : Int) := Int.ofNat_nonneg n
  have hd : ¬ (n : Int) > BYTES P 1 := by omega
  have hsd := sectorDemand_direct P hd
  have hns0 : 0 ≤ divRoundUp (n : Int) (P.S : Int) :=
    divRoundUp_nonneg_of_nonneg P _ h0
  have hguard : ¬ ((st.bmp.numClear : Int) < divRoundUp (n : Int) (P.S : Int)) := by
    rw [hsd] at hen
    omega
  have hb1 := BYTES_pos P 1
  have h4 : ¬ (n : Int) > BYTES P 4 := by
    have := BYTES_le_BYTES P (show 1 ≤ 4 by omega)
    omega
  have h3 : ¬ (n : Int) > BYTES P 3 := by
    have := BYTES_le_BYTES P (show 1 ≤ 3 by omega)
    omega
  have h2 : ¬ (n : Int) > BYTES P 2 := by
    have := BYTES_le_BYTES P (show 1 ≤ 2 by omega)
    omega
  have hEq : Allocate P (n : Int) st =
      (⟨(n : Int), divRoundUp (n : Int) (P.S : Int),
          (directLoop (divRoundUp (n : Int) (P.S : Int)).toNat 0 freshDS st).1⟩,
        true, (directLoop (divRoundUp (n : Int) (P.S : Int)).toNat 0 freshDS st).2) := by
    rw [Allocate.eq_def]
    simp only [if_neg hguard, if_neg h4, if_neg h3, if_neg h2, if_neg hd]
  rcases hq : directLoop (divRoundUp (n : Int) (P.S : Int)).toNat 0 freshDS st
    with ⟨dsO, stO⟩
  rw [hq] at hEq
  have hEq2 : Allocate P (n : Int) st =
      (⟨(n : Int), divRoundUp (n : Int) (P.S : Int), dsO⟩, true, stO) := hEq
  rw [hEq2]
  have hcount : (divRoundUp (n : Int) (P.S : Int)).toNat ≤ st.bmp.numClear := by
    rw [hsd] at hen
    exact hen
  obtain ⟨⟨hcnt, _hext⟩, _hdsfr, hnewzero, hdistinct, _hdiskfr, _hclean, _hbit0⟩ :=
    directLoop_spec _ 0 freshDS st dsO stO hcount hq
  have hdeq : Deallocate P fuel
      (⟨(n : Int), divRoundUp (n : Int) (P.S : Int), dsO⟩ : FileHeaderData)
      stO.disk stO.bmp =
      DeallocateDirect dsO (divRoundUp (n : Int) (P.S : Int)).toNat 0 stO.bmp := by
    rw [Deallocate.eq_def]
    simp only [if_neg hd]
  rw [hdeq]
  have htest : ∀ j, j < (divRoundUp (n : Int) (P.S : Int)).toNat →
      stO.bmp.test (dsO (0 + j)) = true := by
    intro j hj
    exact (hnewzero j hj).1.1
  have hdist : ∀ j1 j2, j1 < (divRoundUp (n : Int) (P.S : Int)).toNat →
      j2 < (divRoundUp (n : Int) (P.S : Int)).toNat → j1 ≠ j2 →
      dsO (0 + j1) ≠ dsO (0 + j2) := hdistinct
  have hcountEq := DeallocateDirect_count
    (divRoundUp (n : Int) (P.S : Int)).toNat 0 dsO stO.bmp htest hdist
  rw [hcountEq]
  omega

unseal sectorDemand sectorDemandLoop in
/-- Witness for the amended C3: size 2 fits one direct level under `P0`. -/
theorem claim3_witness :
    (((2 : Nat) : Int) ≤ BYTES P0 1 ∧
      sectorDemand P0 ((2 : Nat) : Int) ≤ st8.bmp.numClear) ∧
    (Deallocate P0 4 (Allocate P0 ((2 : Nat) : Int) st8).1
      (Allocate P0 ((2 : Nat) : Int) st8).2.2.disk
      (Allocate P0 ((2 : Nat) : Int) st8).2.2.bmp).1.numClear = st8.bmp.numClear :=
  ⟨⟨by decide, by decide⟩,
    claim3_amended_direct_restore P0 2 st8 4 (by decide) (by decide)⟩

/-! ## The directory layer (`directory.cc`)

`DirectoryEntry` comes from `directory.h`, which is absent from the sources;
`directory.cc` and the spec (§2 "Directory entry") fix its shape: `inUse`,
a name bounded by `FileNameMaxLen`, the header `sector`, and the MP4
`isadirectory` flag.  Names are C strings touched only through
`strncmp(·,·,FileNameMaxLen)` and `strncpy(·,·,FileNameMaxLen)`; modelling
them as NUL-free character lists, `strncmp(a,b,L) == 0` is exactly
`a.take L = b.take L` and `strncpy` stores `name.take L`.  The bound `L`
(`FileNameMaxLen`, a constant of the missing header) is a parameter of every
operation. -/
structure DirEntry where
  inUse : Bool
  name : List Char
  sector : Int
  isadirectory : Bool
deriving DecidableEq

abbrev DirTable := List DirEntry

/-- `table[i]`; indices are in range in every run the theorems consider
(the table's size is fixed at construction). -/
def dirGet (tbl : DirTable) (i : Nat) : DirEntry :=
  tbl.getD i ⟨false, [], -1, false⟩

namespace Directory

/-- The scan of `Directory::FindIndex` (directory.cc lines 97–110), carrying
the index of the head entry: return the first `i` with
`table[i].inUse && !strncmp(table[i].name, name, FileNameMaxLen)`, else
`-1`. -/
def FindIndexAux (L : Nat) (name : List Char) : List DirEntry → Int → Int
  | [], _ => -1
  | e :: rest, i =>
    if e.inUse = true ∧ e.name.take L = name.take L then i
    else FindIndexAux L name rest (i + 1)

/-- `Directory::FindIndex`. -/
def FindIndex (L : Nat) (tbl : DirTable) (name : List Char) : Int :=
  FindIndexAux L name tbl 0

/-- `Directory::Find` (lines 121–128). -/
def Find (L : Nat) (tbl : DirTable) (name : List Char) : Int :=
  let i := FindIndex L tbl name
  if i ≠ -1 then (dirGet tbl i.toNat).sector else -1

/-- The free-slot loop of `Directory::Add`: claim the first slot with
`!table[i].inUse`, `strncpy` the name, store sector and flag. -/
def AddLoop (L : Nat) (name : List Char) (newSector : Int) (isdir : Bool) :
    List DirEntry → Bool × List DirEntry
  | [] => (false, [])
  | e :: rest =>
    if e.inUse = false then
      (true, ⟨true, name.take L, newSector, isdir⟩ :: rest)
    else
      let r := AddLoop L name newSector isdir rest
      (r.1, e :: r.2)

/-- `Directory::Add` (three-argument MP4 form, lines 141–158). -/
def Add (L : Nat) (tbl : DirTable) (name : List Char) (newSector : Int)
    (isdir : Bool) : Bool × DirTable :=
  if FindIndex L tbl name ≠ -1 then (false, tbl)
  else AddLoop L name newSector isdir tbl

/-- `table[i].inUse = FALSE` at a given slot. -/
def ClearAt : List DirEntry → Nat → List DirEntry
  | [], _ => []
  | e :: rest, 0 => ⟨false, e.name, e.sector, e.isadirectory⟩ :: rest
  | e :: rest, n + 1 => e :: ClearAt rest n

/-- `Directory::Remove` (lines 183–191): mark the matching slot unused. -/
def Remove (L : Nat) (tbl : DirTable) (name : List Char) : Bool × DirTable :=
  let i := FindIndex L tbl name
  if i = -1 then (false, tbl)
  else (true, ClearAt tbl i.toNat)

/-- Modelled from the spec: `Directory::isadirectory(name)` is declared in
the missing `directory.h`; per the spec's entry model (§2, §4.3) and its call
sites it reports the `isadirectory` flag of the in-use entry matching `name`
(false when the name is absent). -/
def isadirectory (L : Nat) (tbl : DirTable) (name : List Char) : Bool :=
  let i := FindIndex L tbl name
  if i ≠ -1 then (dirGet tbl i.toNat).isadirectory else false

end Directory

/-! ## The file-system state acted on by `filesys.cc` and `RecursiveRemove` -/

/-- The persistent state the path-level operations act on: the contents of
the free-map backing file (`freeMapFile`), header-typed whole-sector reads
(`FileHeader::FetchFrom`), the directory table stored in the file whose index
node lives at a given sector (`Directory::FetchFrom` through
`OpenFile(sector)`), and the ordered trace of every `freeMap->Clear(s)` call
issued so far (instrumentation over which the deletion-ordering claim is
stated). -/
structure FsState where
  freeMapF : Bitmap
  hdrs : Int → FileHeaderData
  tables : Int → DirTable
  trace : List Int

/-- `Directory::WriteBack` through the file whose index node is at `s`. -/
def updTables (t : Int → DirTable) (s : Int) (v : DirTable) : Int → DirTable :=
  fun x => if x = s then v else t x

/-- Modelled from the spec (§2, §7): sector 1 holds the root directory's
index node; `directoryFile` is the root directory's backing file. -/
def rootSector : Int := 1

/-- The body of `Directory::RecursiveRemove`'s `while (index < tableSize)`
loop (directory.cc lines 193–237).  `rem` is the number of slots left to
visit and `i` the current index; `fuel` decreases on every call — both on
advancing the index and on descending into a subdirectory — so a run with
enough fuel is exact, and `dfuel` is the depth fuel handed to
`FileHeader::Deallocate`.  Every iteration that touches an entry loads a
fresh `PersistentBitmap` from the free-map file and writes it back; in the
subdirectory branch the bitmap written back is the one loaded *before* the
recursive call, whose own writebacks it thereby overwrites.  The `Clear` of
the subdirectory's own index-node sector precedes the recursive call that
clears the subdirectory's contents. -/
def rrLoop (L : Nat) (P : FSParams) (dfuel : Nat) :
    Nat → Nat → Nat → DirTable → FsState → DirTable × FsState
  | 0, _, _, tbl, st => (tbl, st)
  | _ + 1, 0, _, tbl, st => (tbl, st)
  | f + 1, r + 1, i, tbl, st =>
    let e := dirGet tbl i
    if e.inUse = true then
      if e.isadirectory = true then
        let nextDir := st.tables e.sector
        let dres := Deallocate P dfuel (st.hdrs e.sector) st.hdrs st.freeMapF
        let bmp2 := dres.1.clearBit e.sector
        let st1 : FsState :=
          { st with trace := st.trace ++ dres.2 ++ [e.sector] }
        let rsub := rrLoop L P dfuel f nextDir.length 0 nextDir st1
        let st3 : FsState :=
          { rsub.2 with tables := updTables rsub.2.tables e.sector rsub.1 }
        let tbl2 := (Directory.Remove L tbl e.name).2
        rrLoop L P dfuel f r (i + 1) tbl2 { st3 with freeMapF := bmp2 }
      else
        let dres := Deallocate P dfuel (st.hdrs e.sector) st.hdrs st.freeMapF
        let st1 : FsState :=
          { st with freeMapF := dres.1.clearBit e.sector,
                    trace := st.trace ++ dres.2 ++ [e.sector] }
        rrLoop L P dfuel f r (i + 1) tbl st1
    else rrLoop L P dfuel f r (i + 1) tbl st

/-- `Directory::RecursiveRemove` over a whole table.  The C function's `name`
parameter is never read by the traversal (it deletes every in-use entry), so
the model omits it. -/
def RecursiveRemove (L : Nat) (P : FSParams) (dfuel fuel : Nat)
    (tbl : DirTable) (st : FsState) : DirTable × FsState :=
  rrLoop L P dfuel fuel tbl.length 0 tbl st

/-- The `strtok` walk of `FileSystem::Create` (filesys.cc lines 249–275),
carrying `currentDir`, `currentDirFile`, `lastLevelDirFile` and `prevToken`.
Returns `(token, currentDir, currentDirFile, lastLevelDirFile,
shouldRollBackToLastLevelDir)` as they stand after the loop, with the
post-loop `if (token == NULL) token = prevToken;` already applied.  Note the
walk descends into *any* found entry — it never consults `isadirectory`. -/
def createLoop (L : Nat) (st : FsState) :
    List (List Char) → DirTable → Int → Int → List Char →
    List Char × DirTable × Int × Int × Bool
  | [], curDir, curFile, lastFile, prev => (prev, curDir, curFile, lastFile, true)
  | tok :: rest, curDir, curFile, lastFile, _ =>
    let sector := Directory.Find L curDir tok
    if sector = -1 then (tok, curDir, curFile, lastFile, false)
    else createLoop L st rest (st.tables sector) sector curFile tok

/-- The resolution performed by `FileSystem::Create`: run the walk from the
root and apply the rollback
(`if (shouldRollBackToLastLevelDir) currentDir->FetchFrom(lastLevelDirFile)`),
yielding the token that is looked up / added, the directory table it is
applied against, and `currentDirFile` — the writeback target. -/
def createResolve (L : Nat) (st : FsState) (path : List (List Char)) :
    List Char × DirTable × Int :=
  let r := createLoop L st path (st.tables rootSector) rootSector rootSector
    (path.headD [])
  if r.2.2.2.2 = true then (r.1, st.tables r.2.2.2.1, r.2.2.1)
  else (r.1, r.2.1, r.2.2.1)

/-- Modelled from the spec's amended reading of §5 step 3: the target of
path resolution is the *first* component that fails to resolve, taken
against the deepest directory actually reached; only when every component
resolves is the target the *final* component, taken against the directory
containing it. -/
def resolveSpec (L : Nat) (st : FsState) :
    List (List Char) → DirTable → Int → List Char × DirTable × Int
  | [], curDir, curFile => ([], curDir, curFile)
  | [tok], curDir, curFile => (tok, curDir, curFile)
  | tok :: tok2 :: rest, curDir, curFile =>
    let sector := Directory.Find L curDir tok
    if sector = -1 then (tok, curDir, curFile)
    else resolveSpec L st (tok2 :: rest) (st.tables sector) sector

/-- `FileSystem::Create` (filesys.cc lines 234–308): resolve, fail if the
target token already exists, claim a header sector from the free map, add the
entry, allocate the index node, and on success write back header, directory
and free map (the failure paths return before any writeback, so the state is
returned unchanged — `FileHeader::Allocate` fails only at its initial guard,
before its first side effect). -/
def fsCreate (L : Nat) (P : FSParams) (st : FsState) (path : List (List Char))
    (initialSize : Int) : Bool × FsState :=
  let r := createResolve L st path
  if Directory.Find L r.2.1 r.1 ≠ -1 then (false, st)
  else
    let p := st.freeMapF.findAndSet
    let a := Directory.Add L r.2.1 r.1 p.1 false
    if p.1 = -1 ∨ a.1 = false then (false, st)
    else
      let ar := Allocate P initialSize ⟨p.2, st.hdrs, []⟩
      if ar.2.1 = false then (false, st)
      else
        (true,
          { st with freeMapF := ar.2.2.bmp,
                    hdrs := writeSector ar.2.2.disk p.1 ar.1,
                    tables := updTables st.tables r.2.2 a.2 })

/-- The resolution loop of `FileSystem::Remove` (filesys.cc lines 499–521).
Unlike `Create`, a missing component aborts the whole operation
(`return false`, modelled as `none`).  On success returns the post-loop
`directory` (re-fetched from `last_level_dir_file`), the leaf header
`sector`, `last_level_dir_file`, the target `token`, and `file_temp` (the
open file of the leaf itself). -/
def removeLoop (L : Nat) (st : FsState) :
    List (List Char) → DirTable → Int → Int → List Char → Int →
    Option (DirTable × Int × Int × List Char × Int)
  | [], _, fileTemp, lastLevel, prev, sector =>
    some (st.tables lastLevel, sector, lastLevel, prev, fileTemp)
  | tok :: rest, dir, fileTemp, lastLevel, _, _ =>
    let s := Directory.Find L dir tok
    if s = -1 then none
    else removeLoop L st rest (st.tables s) s fileTemp tok s

/-- `FileSystem::Remove(name, Recursive)` (filesys.cc lines 484–590).
The non-recursive call on a directory entry returns `FALSE` before any
deallocation or writeback.  In the recursive directory branch the free map
written back at the end is the one loaded *before* `RecursiveRemove`, so the
clears performed inside the recursion are overwritten except for the target's
own deallocation. -/
def fsRemove (L : Nat) (P : FSParams) (dfuel rfuel : Nat) (st : FsState)
    (path : List (List Char)) (recursive : Bool) : Bool × FsState :=
  match removeLoop L st path (st.tables rootSector) rootSector rootSector
    (path.headD []) (-1) with
  | none => (false, st)
  | some (dir, sector, lastLevel, tok, fileTemp) =>
    if recursive = true then
      if Directory.isadirectory L dir tok = true then
        let rr := RecursiveRemove L P dfuel rfuel (st.tables fileTemp) st
        let st2 : FsState :=
          { rr.2 with tables := updTables rr.2.tables fileTemp rr.1 }
        let dres := Deallocate P dfuel (st.hdrs sector) st.hdrs st.freeMapF
        let tbl2 := (Directory.Remove L (st2.tables lastLevel) tok).2
        (true,
          { st2 with freeMapF := dres.1.clearBit sector,
                     tables := updTables st2.tables lastLevel tbl2,
                     trace := st2.trace ++ dres.2 ++ [sector] })
      else
        let dres := Deallocate P dfuel (st.hdrs sector) st.hdrs st.freeMapF
        let tbl2 := (Directory.Remove L dir tok).2
        (true,
          { st with freeMapF := dres.1.clearBit sector,
                    tables := updTables st.tables lastLevel tbl2,
                    trace := st.trace ++ dres.2 ++ [sector] })
    else
      if Directory.isadirectory L dir tok = true then (false, st)
      else
        let dres := Deallocate P dfuel (st.hdrs sector) st.hdrs st.freeMapF
        let tbl2 := (Directory.Remove L dir tok).2
        (true,
          { st with freeMapF := dres.1.clearBit sector,
                    tables := updTables st.tables lastLevel tbl2,
                    trace := st.trace ++ dres.2 ++ [sector] })

/-! ## The single shared open-file handle (`filesys.cc` lines 408–470)

`OpenFile` itself lives in `openfile.cc`, which is outside the given
sources; its `Write`/`Read` are abstracted as functions of the handle,
buffer and size.  Modelled from the spec (§5 `openAFile`): the design keeps
one globally shared handle field `opfile`, set by the most recent
`OpenAFile`. -/
structure OpenFileState where
  opfile : Int

/-- `FileSystem::WriteFile(BF, size, id)` (line 459):
`return opfile->Write(BF, size);`. -/
def WriteFileM (writeOp : Int → List Char → Int → Int) (st : OpenFileState)
    (bf : List Char) (size : Int) (id : Int) : Int :=
  writeOp st.opfile bf size

/-- `FileSystem::ReadFile(BF, size, id)` (line 463):
`return opfile->Read(BF, size);`. -/
def ReadFileM (readOp : Int → List Char → Int → Int) (st : OpenFileState)
    (bf : List Char) (size : Int) (id : Int) : Int :=
  readOp st.opfile bf size

/-- `FileSystem::CloseAFile(id)` (line 467): `delete opfile; return 1;`. -/
def CloseAFileM (st : OpenFileState) (id : Int) : Int := 1

/-! ## Concrete directory fixtures

A tiny populated disk under `P0`: the root table (sector 1) holds directory
`a` (index node at sector 2, one data sector 4) whose table (stored at
sector 2) holds plain file `f` (index node at sector 3, one data sector 5).
Sectors 0–5 are marked allocated in an 8-bit free map. -/

def e0 : DirEntry := ⟨false, [], -1, false⟩

def entA : DirEntry := ⟨true, ['a'], 2, true⟩

def entF : DirEntry := ⟨true, ['f'], 3, false⟩

def hdrA : FileHeaderData := ⟨1, 1, updDS freshDS 0 4⟩

def hdrF : FileHeaderData := ⟨1, 1, updDS freshDS 0 5⟩

def bmpC : Bitmap := ⟨8, fun i => decide (i ≤ 5)⟩

def stC : FsState :=
  ⟨bmpC,
   fun s => if s = 2 then hdrA else if s = 3 then hdrF else zeroHeader,
   fun s => if s = rootSector then [entA, e0]
            else if s = 2 then [entF, e0] else [],
   []⟩

unseal Deallocate DeallocateChildren in
/-- C2 (code bug): on the fixture disk — root table containing directory `a`
(index node at sector 2, data sector 4) whose sole child is plain file `f`
(index node at sector 3, data sector 5) — `RecursiveRemove` issues its
bitmap `Clear` calls in the order `[4, 2, 5, 3]`: sector 2, `a`'s own
index-node sector, is cleared *before* sectors 5 and 3, which `a`
transitively owns through `f`.  This contradicts the claimed bottom-up
ordering.  Compounding it, the clears issued inside the recursion are
overwritten by the parent's stale free-map writeback, so `f`'s data sector 5
is still marked allocated when `RecursiveRemove` returns. -/
theorem claim2_code_bug :
    (RecursiveRemove 9 P0 4 8 (stC.tables rootSector) stC).2.trace
        = [4, 2, 5, 3] ∧
    (RecursiveRemove 9 P0 4 8 (stC.tables rootSector) stC).2.freeMapF.test 5
        = true := by
  decide

unseal Deallocate DeallocateChildren in
/-- Counterexample for C6: running `RecursiveRemove` over a table whose only
in-use entry is the plain file `f` leaves that entry in use — the plain-file
branch deallocates sectors but never touches the directory table, so the
claim's "clears the entry from the directory table" conjunct fails. -/
theorem claim6_counterexample :
    (dirGet (RecursiveRemove 9 P0 4 8 [entF, e0] stC).1 0).inUse = true := by
  decide

/-- C8: whenever the path resolves (the resolution loop succeeds) and the
resolved entry is a directory, `FileSystem::Remove` with `Recursive = false`
returns `FALSE` with the state returned exactly as given: no bitmap sector
is cleared, no directory table is written back, no trace entry is emitted. -/
theorem claim8_nonrecursive_remove_dir_unchanged (L : Nat) (P : FSParams)
    (dfuel rfuel : Nat) (st : FsState) (path : List (List Char))
    (dir : DirTable) (sector lastLevel : Int) (tok : List Char) (fileTemp : Int)
    (hres : removeLoop L st path (st.tables rootSector) rootSector rootSector
        (path.headD []) (-1) = some (dir, sector, lastLevel, tok, fileTemp))
    (hdir : Directory.isadirectory L dir tok = true) :
    fsRemove L P dfuel rfuel st path false = (false, st) := by
  unfold fsRemove
  rw [hres]
  simp [hdir]

/-- Witness for C8: `remove /a` non-recursive on the fixture disk, where `a`
is a directory, fails and leaves the state unchanged. -/
theorem claim8_witness :
    (removeLoop 9 stC [['a']] (stC.tables rootSector) rootSector rootSector
        (([['a']] : List (List Char)).headD []) (-1)
      = some ([entA, e0], 2, rootSector, ['a'], 2) ∧
     Directory.isadirectory 9 [entA, e0] ['a'] = true) ∧
    fsRemove 9 P0 4 8 stC [['a']] false = (false, stC) :=
  ⟨⟨by decide, by decide⟩,
    claim8_nonrecursive_remove_dir_unchanged 9 P0 4 8 stC [['a']]
      [entA, e0] 2 rootSector ['a'] 2 (by decide) (by decide)⟩

/-- `FindIndex`'s scan only ever compares `FileNameMaxLen`-length truncations
of the probe name, so names with equal truncations scan identically. -/
theorem FindIndexAux_congr (L : Nat) (n1 n2 : List Char)
    (h : n1.take L = n2.take L) :
    ∀ (l : List DirEntry) (acc : Int),
      Directory.FindIndexAux L n1 l acc = Directory.FindIndexAux L n2 l acc := by
  intro l
  induction l with
  | nil => intro acc; rfl
  | cons e rest ih =>
    intro acc
    simp only [Directory.FindIndexAux]
    rw [h, ih]

/-- C9: directory name matching is by bounded-length truncation: any two
names that agree on their first `FileNameMaxLen` characters give the same
`FindIndex` and `Find` results on every table, and `Add` of the second while
the first is present fails and leaves the table unchanged. -/
theorem claim9_bounded_name_matching (L : Nat) (tbl : DirTable)
    (n1 n2 : List Char) (ns : Int) (isdir : Bool)
    (h : n1.take L = n2.take L) :
    Directory.FindIndex L tbl n1 = Directory.FindIndex L tbl n2 ∧
    Directory.Find L tbl n1 = Directory.Find L tbl n2 ∧
    (Directory.FindIndex L tbl n1 ≠ -1 →
      Directory.Add L tbl n2 ns isdir = (false, tbl)) := by
  have hfi : Directory.FindIndex L tbl n1 = Directory.FindIndex L tbl n2 :=
    FindIndexAux_congr L n1 n2 h tbl 0
  refine ⟨hfi, ?_, ?_⟩
  · simp only [Directory.Find]
    rw [hfi]
  · intro hne
    simp only [Directory.Add]
    rw [← hfi]
    simp [hne]

/-- Witness for C9: with `FileNameMaxLen = 2`, `abc` and `abd` are the same
name to the directory. -/
theorem claim9_witness :
    ((['a', 'b', 'c'] : List Char).take 2 = ['a', 'b', 'd'].take 2) ∧
    (Directory.Find 2 [⟨true, ['a', 'b', 'c'], 7, false⟩] ['a', 'b', 'c']
        = Directory.Find 2 [⟨true, ['a', 'b', 'c'], 7, false⟩] ['a', 'b', 'd'] ∧
     Directory.Add 2 [⟨true, ['a', 'b', 'c'], 7, false⟩] ['a', 'b', 'd'] 9 false
        = (false, [⟨true, ['a', 'b', 'c'], 7, false⟩])) :=
  ⟨by decide,
   (claim9_bounded_name_matching 2 [⟨true, ['a', 'b', 'c'], 7, false⟩]
      ['a', 'b', 'c'] ['a', 'b', 'd'] 9 false (by decide)).2.1,
   (claim9_bounded_name_matching 2 [⟨true, ['a', 'b', 'c'], 7, false⟩]
      ['a', 'b', 'c'] ['a', 'b', 'd'] 9 false (by decide)).2.2 (by decide)⟩

/-- C10: `WriteFile`, `ReadFile` and `CloseAFile` are independent of their
`OpenFileId` argument: each acts only on the single shared `opfile` handle
(the one stored by the most recent `OpenAFile`), so any two ids give the
same result on every state. -/
theorem claim10_id_independence (w r : Int → List Char → Int → Int)
    (st : OpenFileState) (bf : List Char) (size id1 id2 : Int) :
    WriteFileM w st bf size id1 = WriteFileM w st bf size id2 ∧
    ReadFileM r st bf size id1 = ReadFileM r st bf size id2 ∧
    CloseAFileM st id1 = CloseAFileM st id2 :=
  ⟨rfl, rfl, rfl⟩

set_option maxRecDepth 10000 in
unseal Allocate AllocateLevelLoop in
/-- Counterexample for C7: creating `a/m/z` on the fixture disk — directory
`a` exists, component `m` does not — resolves and creates `m`, the *first
missing* component, not the path's final component `z`: the create succeeds,
an entry named `m` (a plain file of the requested size) appears in `a`'s
table, and no entry named `z` is created anywhere. -/
theorem claim7_counterexample :
    (createResolve 9 stC [['a'], ['m'], ['z']]).1 = ['m'] ∧
    (fsCreate 9 P0 stC [['a'], ['m'], ['z']] 1).1 = true ∧
    Directory.Find 9 ((fsCreate 9 P0 stC [['a'], ['m'], ['z']] 1).2.tables 2)
        ['m'] ≠ -1 ∧
    Directory.Find 9 ((fsCreate 9 P0 stC [['a'], ['m'], ['z']] 1).2.tables 2)
        ['z'] = -1 ∧
    Directory.Find 9
        ((fsCreate 9 P0 stC [['a'], ['m'], ['z']] 1).2.tables rootSector)
        ['z'] = -1 := by
  decide

/-- The `Create` walk computes exactly the amended resolution: its target
token, and — after applying the rollback flag — the table that token is
applied against, agree with `resolveSpec`, for every starting directory file
and any incoming `lastLevelDirFile`/`prevToken`. -/
theorem createLoop_resolveSpec (L : Nat) (st : FsState) :
    ∀ (toks : List (List Char)) (curFile lastFile : Int) (prev : List Char),
      toks ≠ [] →
      (createLoop L st toks (st.tables curFile) curFile lastFile prev).1
        = (resolveSpec L st toks (st.tables curFile) curFile).1 ∧
      (if (createLoop L st toks (st.tables curFile) curFile lastFile
              prev).2.2.2.2 = true
       then st.tables
         (createLoop L st toks (st.tables curFile) curFile lastFile
            prev).2.2.2.1
       else (createLoop L st toks (st.tables curFile) curFile lastFile
          prev).2.1)
        = (resolveSpec L st toks (st.tables curFile) curFile).2.1 := by
  intro toks
  induction toks with
  | nil => intro _ _ _ hne; exact absurd rfl hne
  | cons tok rest ih =>
    intro curFile lastFile prev _
    cases rest with
    | nil =>
      by_cases hs : Directory.Find L (st.tables curFile) tok = -1
      · simp [createLoop, resolveSpec, hs]
      · simp [createLoop, resolveSpec, hs]
    | cons tok2 rest2 =>
      by_cases hs : Directory.Find L (st.tables curFile) tok = -1
      · simp [createLoop, resolveSpec, hs]
      · simpa [createLoop, resolveSpec, hs] using
          ih (Directory.Find L (st.tables curFile) tok) curFile tok
            (by simp)

/-- C7 (amended): for every non-empty slash-separated path, the name that
`Create` resolves, looks up and creates is the *first* component that fails
to resolve, applied against the deepest directory actually reached; only
when every component resolves is it the final component, applied against the
directory containing it.  (The original claim — that the target is always
the final component — is refuted by `claim7_counterexample`; `Remove`
diverges further, failing outright on a missing intermediate component, see
`removeLoop`.) -/
theorem claim7_amended_resolution (L : Nat) (st : FsState)
    (path : List (List Char)) (hne : path ≠ []) :
    (createResolve L st path).1
        = (resolveSpec L st path (st.tables rootSector) rootSector).1 ∧
    (createResolve L st path).2.1
        = (resolveSpec L st path (st.tables rootSector) rootSector).2.1 := by
  have h := createLoop_resolveSpec L st path rootSector rootSector
    (path.headD []) hne
  by_cases hrb : (createLoop L st path (st.tables rootSector) rootSector
      rootSector (path.headD [])).2.2.2.2 = true
  · rw [if_pos hrb] at h
    unfold createResolve
    rw [if_pos hrb]
    exact h
  · rw [if_neg hrb] at h
    unfold createResolve
    rw [if_neg hrb]
    exact h

/-- Witness for the amended C7: path `a` on the fixture disk. -/
theorem claim7_witness :
    (([['a']] : List (List Char)) ≠ []) ∧
    ((createResolve 9 stC [['a']]).1
        = (resolveSpec 9 stC [['a']] (stC.tables rootSector) rootSector).1 ∧
     (createResolve 9 stC [['a']]).2.1
        = (resolveSpec 9 stC [['a']] (stC.tables rootSector) rootSector).2.1) :=
  ⟨by decide, claim7_amended_resolution 9 stC [['a']] (by decide)⟩

/-! ## Deallocation lemmas for the amended C6 -/

theorem Bitmap.test_clearBit_self (b : Bitmap) (t : Int) :
    (b.clearBit t).test t = false := by
  rw [Bitmap.clearBit]
  split
  · simp [Bitmap.test]
  · rename_i h
    by_cases h0 : 0 ≤ t
    · have hn : ¬ t.toNat < b.numBits := fun hlt => h ⟨h0, hlt⟩
      simp [Bitmap.test, hn]
    · simp [Bitmap.test, h0]

theorem Bitmap.test_clearBit_mono_false (b : Bitmap) (s t : Int)
    (h : b.test s = false) : (b.clearBit t).test s = false := by
  by_cases he : t = s
  · subst he
    exact Bitmap.test_clearBit_self b t
  · by_cases ht : 0 ≤ t
    · rw [Bitmap.test_clearBit_of_ne b (fun hh => he hh.symm) ht]
      exact h
    · rw [Bitmap.clearBit, if_neg (fun hc => ht hc.1)]
      exact h

theorem DeallocateDirect_mono_false (ds : Nat → Int) :
    ∀ (c i : Nat) (bmp : Bitmap) (s : Int), bmp.test s = false →
      (DeallocateDirect ds c i bmp).1.test s = false := by
  intro c
  induction c with
  | zero => intro i bmp s h; exact h
  | succ c ih =>
    intro i bmp s h
    exact ih (i + 1) (bmp.clearBit (ds i)) s
      (Bitmap.test_clearBit_mono_false bmp s (ds i) h)

/-- Every sector in `DeallocateDirect`'s clear trace tests false in the
bitmap it returns. -/
theorem DeallocateDirect_trace_false (ds : Nat → Int) :
    ∀ (c i : Nat) (bmp : Bitmap) (s : Int),
      s ∈ (DeallocateDirect ds c i bmp).2 →
      (DeallocateDirect ds c i bmp).1.test s = false := by
  intro c
  induction c with
  | zero =>
    intro i bmp s hs
    exact absurd hs (List.not_mem_nil s)
  | succ c ih =>
    intro i bmp s hs
    rcases List.mem_cons.mp hs with he | hm
    · subst he
      exact DeallocateDirect_mono_false ds c (i + 1) (bmp.clearBit (ds i)) _
        (Bitmap.test_clearBit_self bmp (ds i))
    · exact ih (i + 1) (bmp.clearBit (ds i)) s hm

/-- `DeallocateDirect`'s clear trace does not depend on the bitmap. -/
theorem DeallocateDirect_trace_bmp (ds : Nat → Int) :
    ∀ (c i : Nat) (b1 b2 : Bitmap),
      (DeallocateDirect ds c i b1).2 = (DeallocateDirect ds c i b2).2 := by
  intro c
  induction c with
  | zero => intro i b1 b2; rfl
  | succ c ih =>
    intro i b1 b2
    show ds i :: (DeallocateDirect ds c (i + 1) (b1.clearBit (ds i))).2
       = ds i :: (DeallocateDirect ds c (i + 1) (b2.clearBit (ds i))).2
    rw [ih]

/-- One-step unfolding: `DeallocateChildren` at count `0`. -/
theorem DeallocateChildren_zero (P : FSParams) (f i : Nat) (ds : Nat → Int)
    (d : Int → FileHeaderData) (bmp : Bitmap) :
    DeallocateChildren P f 0 i ds d bmp = (bmp, []) := by
  rw [DeallocateChildren.eq_def]

/-- One-step unfolding: `DeallocateChildren` at count `c + 1`. -/
theorem DeallocateChildren_succ (P : FSParams) (f c i : Nat) (ds : Nat → Int)
    (d : Int → FileHeaderData) (bmp : Bitmap) :
    DeallocateChildren P f (c + 1) i ds d bmp
      = ((DeallocateChildren P f c (i + 1) ds d
            (Deallocate P f (d (ds i)) d bmp).1).1,
         (Deallocate P f (d (ds i)) d bmp).2
           ++ (DeallocateChildren P f c (i + 1) ds d
                 (Deallocate P f (d (ds i)) d bmp).1).2) := by
  rw [DeallocateChildren.eq_def]

/-- One-step unfolding: interior `Deallocate` with no fuel. -/
theorem Deallocate_interior_zero (P : FSParams) (hdr : FileHeaderData)
    (d : Int → FileHeaderData) (bmp : Bitmap)
    (h : hdr.numBytes > BYTES P 1) :
    Deallocate P 0 hdr d bmp = (bmp, []) := by
  rw [Deallocate.eq_def]
  simp only [if_pos h]

/-- One-step unfolding: interior `Deallocate` with fuel `f + 1`. -/
theorem Deallocate_interior_succ (P : FSParams) (f : Nat)
    (hdr : FileHeaderData) (d : Int → FileHeaderData) (bmp : Bitmap)
    (h : hdr.numBytes > BYTES P 1) :
    Deallocate P (f + 1) hdr d bmp
      = DeallocateChildren P f (divRoundUp hdr.numSectors (P.ND : Int)).toNat
          0 hdr.dataSectors d bmp := by
  rw [Deallocate.eq_def]
  simp only [if_pos h]

/-- One-step unfolding: direct-level `Deallocate`. -/
theorem Deallocate_direct_eq (P : FSParams) (fuel : Nat)
    (hdr : FileHeaderData) (d : Int → FileHeaderData) (bmp : Bitmap)
    (h : ¬ hdr.numBytes > BYTES P 1) :
    Deallocate P fuel hdr d bmp
      = DeallocateDirect hdr.dataSectors hdr.numSectors.toNat 0 bmp := by
  rw [Deallocate.eq_def]
  simp only [if_neg h]

/-- `Deallocate`/`DeallocateChildren` only ever clear bits: a sector testing
false stays false. -/
theorem Deallocate_both_mono_false (P : FSParams) :
    ∀ fuel : Nat,
      (∀ (hdr : FileHeaderData) (d : Int → FileHeaderData) (bmp : Bitmap)
          (s : Int), bmp.test s = false →
        (Deallocate P fuel hdr d bmp).1.test s = false) ∧
      (∀ (count i : Nat) (ds : Nat → Int) (d : Int → FileHeaderData)
          (bmp : Bitmap) (s : Int), bmp.test s = false →
        (DeallocateChildren P fuel count i ds d bmp).1.test s = false) := by
  intro fuel
  induction fuel with
  | zero =>
    have hd : ∀ (hdr : FileHeaderData) (d : Int → FileHeaderData)
        (bmp : Bitmap) (s : Int), bmp.test s = false →
        (Deallocate P 0 hdr d bmp).1.test s = false := by
      intro hdr d bmp s h
      by_cases hi : hdr.numBytes > BYTES P 1
      · rw [Deallocate_interior_zero P hdr d bmp hi]
        exact h
      · rw [Deallocate_direct_eq P 0 hdr d bmp hi]
        exact DeallocateDirect_mono_false _ _ _ _ _ h
    refine ⟨hd, ?_⟩
    intro count
    induction count with
    | zero =>
      intro i ds d bmp s h
      rw [DeallocateChildren_zero]
      exact h
    | succ c ih =>
      intro i ds d bmp s h
      rw [DeallocateChildren_succ]
      exact ih (i + 1) ds d _ s (hd _ _ _ _ h)
  | succ f ihf =>
    have hd : ∀ (hdr : FileHeaderData) (d : Int → FileHeaderData)
        (bmp : Bitmap) (s : Int), bmp.test s = false →
        (Deallocate P (f + 1) hdr d bmp).1.test s = false := by
      intro hdr d bmp s h
      by_cases hi : hdr.numBytes > BYTES P 1
      · rw [Deallocate_interior_succ P f hdr d bmp hi]
        exact ihf.2 _ _ _ _ _ _ h
      · rw [Deallocate_direct_eq P (f + 1) hdr d bmp hi]
        exact DeallocateDirect_mono_false _ _ _ _ _ h
    refine ⟨hd, ?_⟩
    intro count
    induction count with
    | zero =>
      intro i ds d bmp s h
      rw [DeallocateChildren_zero]
      exact h
    | succ c ih =>
      intro i ds d bmp s h
      rw [DeallocateChildren_succ]
      exact ih (i + 1) ds d _ s (hd _ _ _ _ h)

theorem Deallocate_mono_false (P : FSParams) (fuel : Nat)
    (hdr : FileHeaderData) (d : Int → FileHeaderData) (bmp : Bitmap)
    (s : Int) (h : bmp.test s = false) :
    (Deallocate P fuel hdr d bmp).1.test s = false :=
  (Deallocate_both_mono_false P fuel).1 hdr d bmp s h

/-- Every sector in `Deallocate`'s clear trace tests false in the bitmap it
returns (the interior branch never adds the child header sectors to the
trace — it never clears them). -/
theorem Deallocate_both_trace_false (P : FSParams) :
    ∀ fuel : Nat,
      (∀ (hdr : FileHeaderData) (d : Int → FileHeaderData) (bmp : Bitmap)
          (s : Int), s ∈ (Deallocate P fuel hdr d bmp).2 →
        (Deallocate P fuel hdr d bmp).1.test s = false) ∧
      (∀ (count i : Nat) (ds : Nat → Int) (d : Int → FileHeaderData)
          (bmp : Bitmap) (s : Int),
        s ∈ (DeallocateChildren P fuel count i ds d bmp).2 →
        (DeallocateChildren P fuel count i ds d bmp).1.test s = false) := by
  intro fuel
  induction fuel with
  | zero =>
    have hd : ∀ (hdr : FileHeaderData) (d : Int → FileHeaderData)
        (bmp : Bitmap) (s : Int), s ∈ (Deallocate P 0 hdr d bmp).2 →
        (Deallocate P 0 hdr d bmp).1.test s = false := by
      intro hdr d bmp s hs
      by_cases hi : hdr.numBytes > BYTES P 1
      · rw [Deallocate_interior_zero P hdr d bmp hi] at hs ⊢
        exact absurd hs (List.not_mem_nil s)
      · rw [Deallocate_direct_eq P 0 hdr d bmp hi] at hs ⊢
        exact DeallocateDirect_trace_false _ _ _ _ _ hs
    refine ⟨hd, ?_⟩
    intro count
    induction count with
    | zero =>
      intro i ds d bmp s hs
      rw [DeallocateChildren_zero] at hs
      exact absurd hs (List.not_mem_nil s)
    | succ c ih =>
      intro i ds d bmp s hs
      rw [DeallocateChildren_succ] at hs ⊢
      rcases List.mem_append.mp hs with hl | hr
      · exact (Deallocate_both_mono_false P 0).2 c (i + 1) ds d _ s
          (hd _ _ _ _ hl)
      · exact ih (i + 1) ds d _ s hr
  | succ f ihf =>
    have hd : ∀ (hdr : FileHeaderData) (d : Int → FileHeaderData)
        (bmp : Bitmap) (s : Int), s ∈ (Deallocate P (f + 1) hdr d bmp).2 →
        (Deallocate P (f + 1) hdr d bmp).1.test s = false := by
      intro hdr d bmp s hs
      by_cases hi : hdr.numBytes > BYTES P 1
      · rw [Deallocate_interior_succ P f hdr d bmp hi] at hs ⊢
        exact ihf.2 _ _ _ _ _ _ hs
      · rw [Deallocate_direct_eq P (f + 1) hdr d bmp hi] at hs ⊢
        exact DeallocateDirect_trace_false _ _ _ _ _ hs
    refine ⟨hd, ?_⟩
    intro count
    induction count with
    | zero =>
      intro i ds d bmp s hs
      rw [DeallocateChildren_zero] at hs
      exact absurd hs (List.not_mem_nil s)
    | succ c ih =>
      intro i ds d bmp s hs
      rw [DeallocateChildren_succ] at hs ⊢
      rcases List.mem_append.mp hs with hl | hr
      · exact (Deallocate_both_mono_false P (f + 1)).2 c (i + 1) ds d _ s
          (hd _ _ _ _ hl)
      · exact ih (i + 1) ds d _ s hr

theorem Deallocate_trace_false (P : FSParams) (fuel : Nat)
    (hdr : FileHeaderData) (d : Int → FileHeaderData) (bmp : Bitmap)
    (s : Int) (hs : s ∈ (Deallocate P fuel hdr d bmp).2) :
    (Deallocate P fuel hdr d bmp).1.test s = false :=
  (Deallocate_both_trace_false P fuel).1 hdr d bmp s hs

/-- `Deallocate`'s clear trace is determined by the header, the disk and the
fuel — it does not depend on the bitmap argument. -/
theorem Deallocate_both_trace_bmp (P : FSParams) :
    ∀ fuel : Nat,
      (∀ (hdr : FileHeaderData) (d : Int → FileHeaderData) (b1 b2 : Bitmap),
        (Deallocate P fuel hdr d b1).2 = (Deallocate P fuel hdr d b2).2) ∧
      (∀ (count i : Nat) (ds : Nat → Int) (d : Int → FileHeaderData)
          (b1 b2 : Bitmap),
        (DeallocateChildren P fuel count i ds d b1).2
          = (DeallocateChildren P fuel count i ds d b2).2) := by
  intro fuel
  induction fuel with
  | zero =>
    have hd : ∀ (hdr : FileHeaderData) (d : Int → FileHeaderData)
        (b1 b2 : Bitmap),
        (Deallocate P 0 hdr d b1).2 = (Deallocate P 0 hdr d b2).2 := by
      intro hdr d b1 b2
      by_cases hi : hdr.numBytes > BYTES P 1
      · rw [Deallocate_interior_zero P hdr d b1 hi,
            Deallocate_interior_zero P hdr d b2 hi]
      · rw [Deallocate_direct_eq P 0 hdr d b1 hi,
            Deallocate_direct_eq P 0 hdr d b2 hi]
        exact DeallocateDirect_trace_bmp _ _ _ _ _
    refine ⟨hd, ?_⟩
    intro count
    induction count with
    | zero =>
      intro i ds d b1 b2
      rw [DeallocateChildren_zero, DeallocateChildren_zero]
    | succ c ih =>
      intro i ds d b1 b2
      rw [DeallocateChildren_succ, DeallocateChildren_succ]
      rw [hd (d (ds i)) d b1 b2, ih (i + 1) ds d _ _]
  | succ f ihf =>
    have hd : ∀ (hdr : FileHeaderData) (d : Int → FileHeaderData)
        (b1 b2 : Bitmap),
        (Deallocate P (f + 1) hdr d b1).2 = (Deallocate P (f + 1) hdr d b2).2 := by
      intro hdr d b1 b2
      by_cases hi : hdr.numBytes > BYTES P 1
      · rw [Deallocate_interior_succ P f hdr d b1 hi,
            Deallocate_interior_succ P f hdr d b2 hi]
        exact ihf.2 _ _ _ _ _ _
      · rw [Deallocate_direct_eq P (f + 1) hdr d b1 hi,
            Deallocate_direct_eq P (f + 1) hdr d b2 hi]
        exact DeallocateDirect_trace_bmp _ _ _ _ _
    refine ⟨hd, ?_⟩
    intro count
    induction count with
    | zero =>
      intro i ds d b1 b2
      rw [DeallocateChildren_zero, DeallocateChildren_zero]
    | succ c ih =>
      intro i ds d b1 b2
      rw [DeallocateChildren_succ, DeallocateChildren_succ]
      rw [hd (d (ds i)) d b1 b2, ih (i + 1) ds d _ _]

theorem Deallocate_trace_bmp (P : FSParams) (fuel : Nat)
    (hdr : FileHeaderData) (d : Int → FileHeaderData) (b1 b2 : Bitmap) :
    (Deallocate P fuel hdr d b1).2 = (Deallocate P fuel hdr d b2).2 :=
  (Deallocate_both_trace_bmp P fuel).1 hdr d b1 b2

/-- On a table whose in-use entries are all plain files, `RecursiveRemove`'s
loop leaves the table untouched, only ever clears bitmap bits, and for every
in-use slot it visits ends with that entry's header sector and every sector
in that entry's deallocation trace testing false in the free-map file. -/
theorem rrLoop_flat (L : Nat) (P : FSParams) (dfuel : Nat) :
    ∀ (rem fuel i : Nat) (tbl : DirTable) (st : FsState),
      (∀ e ∈ tbl, e.isadirectory = false) → rem ≤ fuel →
      (rrLoop L P dfuel fuel rem i tbl st).1 = tbl ∧
      (∀ s : Int, st.freeMapF.test s = false →
        (rrLoop L P dfuel fuel rem i tbl st).2.freeMapF.test s = false) ∧
      (∀ j, j < rem → (dirGet tbl (i + j)).inUse = true →
        ((rrLoop L P dfuel fuel rem i tbl st).2.freeMapF.test
            ((dirGet tbl (i + j)).sector) = false ∧
         ∀ x ∈ (Deallocate P dfuel (st.hdrs ((dirGet tbl (i + j)).sector))
            st.hdrs st.freeMapF).2,
          (rrLoop L P dfuel fuel rem i tbl st).2.freeMapF.test x = false)) := by
  intro rem
  induction rem with
  | zero =>
    intro fuel i tbl st hflat hle
    have hr : rrLoop L P dfuel fuel 0 i tbl st = (tbl, st) := by
      cases fuel with
      | zero => rfl
      | succ f => rfl
    rw [hr]
    exact ⟨rfl, fun s h => h, fun j hj => absurd hj (by omega)⟩
  | succ r ih =>
    intro fuel i tbl st hflat hle
    cases fuel with
    | zero => omega
    | succ f =>
      have hle2 : r ≤ f := by omega
      by_cases hu : (dirGet tbl i).inUse = true
      · have hmem : dirGet tbl i ∈ tbl := by
          by_cases hlen : i < tbl.length
          · rw [dirGet, List.getD_eq_getElem _ _ hlen]
            exact List.getElem_mem hlen
          · exfalso
            rw [dirGet, List.getD_eq_default _ _ (by omega)] at hu
            simp at hu
        have hnd : (dirGet tbl i).isadirectory = false := hflat _ hmem
        have hstep : rrLoop L P dfuel (f + 1) (r + 1) i tbl st
            = rrLoop L P dfuel f r (i + 1) tbl
                { st with
                  freeMapF := (Deallocate P dfuel
                      (st.hdrs ((dirGet tbl i).sector)) st.hdrs
                      st.freeMapF).1.clearBit ((dirGet tbl i).sector),
                  trace := st.trace ++ (Deallocate P dfuel
                      (st.hdrs ((dirGet tbl i).sector)) st.hdrs
                      st.freeMapF).2 ++ [(dirGet tbl i).sector] } := by
          simp only [rrLoop]
          rw [if_pos hu, if_neg (by simp [hnd])]
        rw [hstep]
        have H := ih f (i + 1) tbl
          { st with
            freeMapF := (Deallocate P dfuel
                (st.hdrs ((dirGet tbl i).sector)) st.hdrs
                st.freeMapF).1.clearBit ((dirGet tbl i).sector),
            trace := st.trace ++ (Deallocate P dfuel
                (st.hdrs ((dirGet tbl i).sector)) st.hdrs
                st.freeMapF).2 ++ [(dirGet tbl i).sector] }
          hflat hle2
        refine ⟨H.1, ?_, ?_⟩
        · intro s hs
          exact H.2.1 s (Bitmap.test_clearBit_mono_false _ s _
            (Deallocate_mono_false P dfuel _ _ _ s hs))
        · intro j hj hju
          cases j with
          | zero =>
            rw [Nat.add_zero] at hju ⊢
            refine ⟨?_, ?_⟩
            · exact H.2.1 _ (Bitmap.test_clearBit_self _ _)
            · intro x hx
              exact H.2.1 x (Bitmap.test_clearBit_mono_false _ x _
                (Deallocate_trace_false P dfuel _ _ _ x hx))
          | succ j2 =>
            have hidx : i + (j2 + 1) = (i + 1) + j2 := by omega
            rw [hidx] at hju ⊢
            have H3 := H.2.2 j2 (by omega) hju
            refine ⟨H3.1, ?_⟩
            intro x hx
            apply H3.2 x
            rw [Deallocate_trace_bmp P dfuel _ _ _ st.freeMapF]
            exact hx
      · have hstep : rrLoop L P dfuel (f + 1) (r + 1) i tbl st
            = rrLoop L P dfuel f r (i + 1) tbl st := by
          simp only [rrLoop]
          rw [if_neg hu]
        rw [hstep]
        have H := ih f (i + 1) tbl st hflat hle2
        refine ⟨H.1, H.2.1, ?_⟩
        intro j hj hju
        cases j with
        | zero =>
          rw [Nat.add_zero] at hju
          exact absurd hju hu
        | succ j2 =>
          have hidx : i + (j2 + 1) = (i + 1) + j2 := by omega
          rw [hidx] at hju ⊢
          exact H.2.2 j2 (by omega) hju

/-- C6 (amended): for a table whose in-use entries are all plain files and
enough loop fuel, `RecursiveRemove` deallocates every visited plain-file
entry — its header sector and every sector in its `Deallocate` clear trace
test false in the resulting free map — but, contrary to the original claim,
it never clears any entry from the directory table: the table is returned
exactly as given, every visited plain-file entry still in use. -/
theorem claim6_amended_plainfile_dealloc (L : Nat) (P : FSParams)
    (dfuel fuel : Nat) (tbl : DirTable) (st : FsState)
    (hflat : ∀ e ∈ tbl, e.isadirectory = false)
    (hfuel : tbl.length ≤ fuel) :
    (RecursiveRemove L P dfuel fuel tbl st).1 = tbl ∧
    ∀ j, j < tbl.length → (dirGet tbl j).inUse = true →
      ((RecursiveRemove L P dfuel fuel tbl st).2.freeMapF.test
          ((dirGet tbl j).sector) = false ∧
       ∀ x ∈ (Deallocate P dfuel (st.hdrs ((dirGet tbl j).sector)) st.hdrs
          st.freeMapF).2,
         (RecursiveRemove L P dfuel fuel tbl st).2.freeMapF.test x = false) := by
  have h := rrLoop_flat L P dfuel tbl.length fuel 0 tbl st hflat hfuel
  refine ⟨h.1, ?_⟩
  intro j hj hju
  have h3 := h.2.2 j hj (by rw [Nat.zero_add]; exact hju)
  rw [Nat.zero_add] at h3
  exact h3

unseal Deallocate DeallocateChildren in
/-- Witness for the amended C6: the single-file fixture table. -/
theorem claim6_witness :
    ((∀ e ∈ ([entF, e0] : DirTable), e.isadirectory = false) ∧
      ([entF, e0] : DirTable).length ≤ 2) ∧
    ((RecursiveRemove 9 P0 4 2 [entF, e0] stC).1 = [entF, e0] ∧
     ∀ j, j < ([entF, e0] : DirTable).length →
       (dirGet [entF, e0] j).inUse = true →
       ((RecursiveRemove 9 P0 4 2 [entF, e0] stC).2.freeMapF.test
           ((dirGet [entF, e0] j).sector) = false ∧
        ∀ x ∈ (Deallocate P0 4 (stC.hdrs ((dirGet [entF, e0] j).sector))
           stC.hdrs stC.freeMapF).2,
          (RecursiveRemove 9 P0 4 2 [entF, e0] stC).2.freeMapF.test x
            = false)) :=
  ⟨⟨by decide, by decide⟩,
    claim6_amended_plainfile_dealloc 9 P0 4 2 [entF, e0] stC (by decide)
      (by decide)⟩
